import Mathlib

/-!
# Intermediate data cache of the generator (`generator/intermediate_data.hpp`)

A shallow embedding of the key/offset index (`IndexFileReader`, `IndexFileWriter`) and of
the offset-addressed record cache (`OSMElementCacheReader`, `OSMElementCacheWriter`) of
namespace `generator::cache`, followed by theorems about them.

Conventions of the embedding.

* `uint64_t` keys, values and file offsets are natural numbers.  They count entities and
  bytes of one file, so no wrap-around at `2^64` is modelled.
* The `uint32_t` record length is a natural number reduced `% 2^32` where the source
  narrows (`static_cast<uint32_t>`, `base::checked_cast<uint32_t>`).
* A file or memory buffer is the list of its bytes; a byte is a `Fin 256`.
* A C++ callable with captured state is a function `σ → arg → ControlFlow × σ`.
-/

namespace generator
namespace cache

/-- The type `Key` of the source (`using Key = uint64_t`). -/
abbrev Key := Nat

/-- The type `Value` of both index classes (`using Value = uint64_t`). -/
abbrev Value := Nat

/-- The type `Element` of both index classes (`std::pair<Key, Value>`). -/
abbrev Element := Key × Value

/-- A byte of a file or of a memory buffer. -/
abbrev Byte := Fin 256

end cache
end generator

namespace base

/-- The enumeration `base::ControlFlow` that a visitor answers with. -/
inductive ControlFlow where
  | Break
  | Continue
  deriving DecidableEq, Repr

end base

namespace generator
namespace cache

open base

/-! ## `IndexFileReader::ElementComparator` -/

namespace ElementComparator

/-- The overload `operator()(Element const & r1, Element const & r2)`. -/
def lessEE (r1 r2 : Element) : Bool :=
  if r1.1 = r2.1 then decide (r1.2 < r2.2) else decide (r1.1 < r2.1)

/-- The overload `operator()(Element const & r1, Key r2)`. -/
def lessEK (r1 : Element) (r2 : Key) : Bool := decide (r1.1 < r2)

/-- The overload `operator()(Key r1, Element const & r2)`. -/
def lessKE (r1 : Key) (r2 : Element) : Bool := decide (r1 < r2.1)

end ElementComparator

/-! ## The standard algorithms used on `m_elements` -/

/-- The loop shared by `std::lower_bound` and `std::upper_bound`: `goRight x` says that the
search continues to the right of the probed element `x`.  Each turn probes
`first + count / 2` and leaves fewer than `count` candidates, so `fuel = count` turns are
always enough; the fuel only makes the recursion structural. -/
def boundLoop (goRight : Element → Bool) (xs : List Element) : Nat → Nat → Nat → Nat
  | 0, first, _ => first
  | fuel + 1, first, count =>
    if count = 0 then first
    else
      let step := count / 2
      let it := first + step
      if goRight (xs.getD it (0, 0)) then boundLoop goRight xs fuel (it + 1) (count - (step + 1))
      else boundLoop goRight xs fuel first step

/-- The call `std::lower_bound(xs.begin(), xs.end(), k, ElementComparator())`, as an index
into `xs`: the search goes right while `comp(*it, k)`. -/
def lower_bound (xs : List Element) (k : Key) : Nat :=
  boundLoop (fun x => ElementComparator.lessEK x k) xs xs.length 0 xs.length

/-- The call `std::upper_bound(xs.begin(), xs.end(), k, ElementComparator())`, as an index
into `xs`: the search goes right while `!comp(k, *it)`. -/
def upper_bound (xs : List Element) (k : Key) : Nat :=
  boundLoop (fun x => !ElementComparator.lessKE k x) xs xs.length 0 xs.length

/-- The call `std::equal_range(xs.begin(), xs.end(), k, ElementComparator())`: the pair of
`lower_bound` and `upper_bound`. -/
def equal_range (xs : List Element) (k : Key) : Nat × Nat :=
  (lower_bound xs k, upper_bound xs k)

/-! ## `IndexFileWriter` -/

/-- The class `IndexFileWriter`: the entries collected in memory.  Its file is the value
that `WriteAll` returns. -/
structure IndexFileWriter where
  m_elements : List Element
  deriving DecidableEq, Repr

namespace IndexFileWriter

/-- A freshly constructed writer. -/
def empty : IndexFileWriter := ⟨[]⟩

/-- Modelled from the spec: `IndexFileWriter::Add` is only declared in the header.  "`add(key,
value)` appends an entry to an in-memory mapping; no ordering enforced at insertion time." -/
def Add (w : IndexFileWriter) (k : Key) (v : Value) : IndexFileWriter :=
  ⟨w.m_elements ++ [(k, v)]⟩

/-- Insertion of one entry into a sequence ordered by `ElementComparator`. -/
def sortInsert (e : Element) : List Element → List Element
  | [] => [e]
  | x :: xs => if ElementComparator.lessEE e x then e :: x :: xs else x :: sortInsert e xs

/-- Modelled from the spec: the sort inside `WriteAll` ("sorts all entries by (key,
value)"), as an insertion sort with `ElementComparator`. -/
def sortElements : List Element → List Element
  | [] => []
  | e :: es => sortInsert e (sortElements es)

/-- Modelled from the spec: `IndexFileWriter::WriteAll` is only declared in the header.
"`writeAll()` sorts all entries by (key, value), then serializes the sorted sequence to a
file in a single pass."  The result is the content of the index file, as the sequence of
its fixed-size `(Key, Value)` records. -/
def WriteAll (w : IndexFileWriter) : List Element :=
  sortElements w.m_elements

/-- A sequence of `Add(key, value)` calls, in order, on the writer `w`. -/
def addAll (w : IndexFileWriter) : List Element → IndexFileWriter
  | [] => w
  | (k, v) :: rest => addAll (w.Add k v) rest

end IndexFileWriter

/-! ## `IndexFileReader` -/

/-- The class `IndexFileReader`. -/
structure IndexFileReader where
  m_elements : List Element
  deriving DecidableEq, Repr

namespace IndexFileReader

/-- Modelled from the spec: the constructor `IndexFileReader(name)` is only declared in the
header.  "At construction, the entire index file is loaded into memory as a sorted sequence
of entries." -/
def load (file : List Element) : IndexFileReader := ⟨file⟩

/-- Modelled from the spec: `IndexFileReader::GetValueByKey` is only declared in the header.
"`getFirst(key)`: binary search for the first matching key; returns nothing if absent."
The result `some v` stands for `true` with the out-parameter set to `v`, and `none` for
`false` with the out-parameter untouched. -/
def GetValueByKey (r : IndexFileReader) (key : Key) : Option Value :=
  let it := lower_bound r.m_elements key
  if it < r.m_elements.length ∧ (r.m_elements.getD it (0, 0)).1 = key then
    some (r.m_elements.getD it (0, 0)).2
  else none

/-- The `for` loop of `ForEachByKey` over the iterator range `[first, first + n)`: the
visitor receives `(*range.first).second` and the loop is left on `Break`. -/
def forEachLoop {σ : Type} (xs : List Element) (toDo : σ → Value → ControlFlow × σ) :
    Nat → Nat → σ → σ
  | 0, _, s => s
  | n + 1, first, s =>
    match toDo s (xs.getD first (0, 0)).2 with
    | (ControlFlow.Break, s') => s'
    | (ControlFlow.Continue, s') => forEachLoop xs toDo n (first + 1) s'

/-- The member template `IndexFileReader::ForEachByKey`.  The visitor `toDo` carries its
captured state `σ`; the result is that state after the traversal. -/
def ForEachByKey {σ : Type} (r : IndexFileReader) (k : Key)
    (toDo : σ → Value → ControlFlow × σ) (s : σ) : σ :=
  let range := equal_range r.m_elements k
  forEachLoop r.m_elements toDo (range.2 - range.1) range.1 s

/-- The visitor `toDo` instrumented with a log of its invocations: each call appends the
value it received and the answer it gave. -/
def recording {σ : Type} (toDo : σ → Value → ControlFlow × σ) :
    σ × List (Value × ControlFlow) → Value → ControlFlow × (σ × List (Value × ControlFlow)) :=
  fun st v => ((toDo st.1 v).1, ((toDo st.1 v).2, st.2 ++ [(v, (toDo st.1 v).1)]))

/-- The invocations of the visitor during `ForEachByKey(k, toDo)`, in order: the value
passed and the answer returned. -/
def calls {σ : Type} (r : IndexFileReader) (k : Key)
    (toDo : σ → Value → ControlFlow × σ) (s : σ) : List (Value × ControlFlow) :=
  (ForEachByKey r k (recording toDo) (s, [])).2

end IndexFileReader

/-- An index written by `Add` calls and `WriteAll`, then reloaded. -/
def reloaded (adds : List Element) : IndexFileReader :=
  IndexFileReader.load (IndexFileWriter.WriteAll (IndexFileWriter.addAll IndexFileWriter.empty adds))

/-! ## Bytes, the `uint32_t` length field and `MemWriter` -/

/-- The four bytes of a `uint32_t` in memory (least significant byte first), as
`Write(&sz, sizeof(sz))` stores them. -/
def encodeU32 (n : Nat) : List Byte :=
  [⟨n % 256, Nat.mod_lt _ (by decide)⟩, ⟨n / 256 % 256, Nat.mod_lt _ (by decide)⟩,
   ⟨n / 65536 % 256, Nat.mod_lt _ (by decide)⟩, ⟨n / 16777216 % 256, Nat.mod_lt _ (by decide)⟩]

/-- The `uint32_t` that four bytes of memory hold (least significant byte first), as
`*reinterpret_cast<uint32_t const *>(p)` loads it. -/
def decodeU32 : List Byte → Nat
  | [b0, b1, b2, b3] => b0.val + 256 * b1.val + 65536 * b2.val + 16777216 * b3.val
  | _ => 0

/-- The constant `std::numeric_limits<uint32_t>::max()`. -/
def UINT32_MAX : Nat := 4294967295

/-- The conversion `static_cast<uint32_t>(n)` of an unsigned 64-bit quantity. -/
def castU32 (n : Nat) : Nat := n % 4294967296

/-- Modelled from the spec: the macro `ASSERT_LESS` of `base/assert.hpp` is not among the
sources.  The build decides whether assertions are compiled in (`assertsOn`); the result
`true` means that execution goes on, `false` that the failed assertion aborts it ("fatal,
should abort that write"). -/
def ASSERT_LESS (assertsOn : Bool) (x y : Nat) : Bool := !assertsOn || decide (x < y)

/-- Modelled from the spec: `base::checked_cast<uint32_t>` of `base/checked_cast.hpp` is not
among the sources.  It narrows like `static_cast`; with assertions compiled in it aborts
(`none`) when the narrowed value differs from the argument. -/
def checked_castU32 (assertsOn : Bool) (n : Nat) : Option Nat :=
  if assertsOn ∧ castU32 n ≠ n then none else some (castU32 n)

/-- Modelled from the spec: the class template `MemWriter` of `coding/writer.hpp` is not
among the sources.  A writer over a byte container with a position. -/
structure MemWriter where
  m_Data : List Byte
  m_Pos : Nat
  deriving DecidableEq, Repr

namespace MemWriter

/-- The member `Pos()`. -/
def Pos (w : MemWriter) : Nat := w.m_Pos

/-- The member `Seek(pos)`. -/
def Seek (w : MemWriter) (pos : Nat) : MemWriter := { w with m_Pos := pos }

/-- The member `Write(p, size)`: the bytes overwrite the container from the position on,
extend it where they reach past its end, and the position moves behind them. -/
def Write (w : MemWriter) (bytes : List Byte) : MemWriter :=
  { m_Data := w.m_Data.take w.m_Pos ++ List.replicate (w.m_Pos - w.m_Data.length) 0 ++ bytes
      ++ w.m_Data.drop (w.m_Pos + bytes.length),
    m_Pos := w.m_Pos + bytes.length }

end MemWriter

/-- The serialization capability of an element type (`WayElement`, `RelationElement`, ...
of `generator/intermediate_elements.hpp`, not among the sources): `Write e` is the byte
string that `e.Write(writer)` appends at the writer's position, and `Read v bytes` is the
element that `v.Read(reader)` leaves in `v` for a reader over exactly `bytes`. -/
structure ElementCodec (α : Type) where
  Write : α → List Byte
  Read : α → List Byte → α

/-! ## `OSMElementCacheWriter` -/

/-- The class `OSMElementCacheWriter`.  `m_fileWriter` is the content of the data file, that
is all bytes appended so far; the mutexes and the name carry no data. -/
structure OSMElementCacheWriter where
  m_fileWriter : List Byte
  m_currOffset : Nat
  m_offsets : IndexFileWriter
  m_data : List Byte
  deriving DecidableEq, Repr

namespace OSMElementCacheWriter

/-- A freshly constructed writer: empty data file, `m_currOffset{0}`, empty offset index. -/
def empty : OSMElementCacheWriter :=
  { m_fileWriter := [], m_currOffset := 0, m_offsets := IndexFileWriter.empty, m_data := [] }

/-- The member template `Write(Key id, Value const & value)`.  `Except.ok` is the state
after the call; `Except.error` is the state in which a failed assertion aborted it. -/
def Write {α : Type} (c : ElementCodec α) (assertsOn : Bool) (w : OSMElementCacheWriter)
    (id : Key) (value : α) : Except OSMElementCacheWriter OSMElementCacheWriter :=
  let w := { w with m_offsets := w.m_offsets.Add id w.m_currOffset }
  let w := { w with m_data := [] }
  let mw := (MemWriter.mk w.m_data 0).Write (c.Write value)
  let w := { w with m_data := mw.m_Data }
  if ASSERT_LESS assertsOn w.m_data.length UINT32_MAX then
    let sz := castU32 w.m_data.length
    let w := { w with m_fileWriter := w.m_fileWriter ++ encodeU32 sz }
    let w := { w with m_fileWriter := w.m_fileWriter ++ w.m_data.take sz }
    Except.ok { w with m_currOffset := w.m_currOffset + (4 + sz) }
  else Except.error w

/-- The private member template `WriteValue(element, writer)`; `none` when an assertion
aborts. -/
def WriteValue {α : Type} (c : ElementCodec α) (assertsOn : Bool) (element : α)
    (writer : MemWriter) : Option MemWriter :=
  let sizePos := writer.Pos
  let writer := writer.Write (encodeU32 0)
  let elementDataPos := writer.Pos
  let writer := writer.Write (c.Write element)
  let elementDataEndPos := writer.Pos
  match checked_castU32 assertsOn (elementDataEndPos - elementDataPos) with
  | none => none
  | some elementDataSize =>
    if ASSERT_LESS assertsOn elementDataSize UINT32_MAX then
      let writer := writer.Seek sizePos
      let writer := writer.Write (encodeU32 elementDataSize)
      some (writer.Seek elementDataEndPos)
    else none

/-- The first loop of the batch `Write`: every element is serialized into the private
buffer behind `writer`, and `(key, pos)` is appended to `elementsOffsets`. -/
def serializeLoop {α : Type} (c : ElementCodec α) (assertsOn : Bool) :
    List (Key × α) → MemWriter → List (Key × Nat) → Option (MemWriter × List (Key × Nat))
  | [], writer, elementsOffsets => some (writer, elementsOffsets)
  | element :: rest, writer, elementsOffsets =>
    let pos := writer.Pos
    match WriteValue c assertsOn element.2 writer with
    | none => none
    | some writer => serializeLoop c assertsOn rest writer (elementsOffsets ++ [(element.1, pos)])

/-- The unlocked part of the batch `Write` (lines 186-198): the buffer `data` and the list
`elementsOffsets`. -/
def serializeBatch {α : Type} (c : ElementCodec α) (assertsOn : Bool)
    (elements : List (Key × α)) : Option (List Byte × List (Key × Nat)) :=
  match serializeLoop c assertsOn elements (MemWriter.mk [] 0) [] with
  | none => none
  | some (writer, elementsOffsets) => some (writer.m_Data, elementsOffsets)

/-- The block under `m_fileWriterMutex` of the batch `Write` (lines 202-207): the new state
and the local `dataOffset`. -/
def appendLocked (w : OSMElementCacheWriter) (data : List Byte) : OSMElementCacheWriter × Nat :=
  let dataOffset := w.m_currOffset
  let w := { w with m_fileWriter := w.m_fileWriter ++ data }
  let w := { w with m_currOffset := w.m_currOffset + data.length }
  (w, dataOffset)

/-- The block under `m_offsetsMutex` of the batch `Write` (lines 209-213). -/
def indexLocked (w : OSMElementCacheWriter) (dataOffset : Nat) :
    List (Key × Nat) → OSMElementCacheWriter
  | [] => w
  | elementOffset :: rest =>
    indexLocked { w with m_offsets := w.m_offsets.Add elementOffset.1 (dataOffset + elementOffset.2) }
      dataOffset rest

/-- The member template `Write(std::vector<std::pair<Key, Value>> const & elements, bool)`,
the batch write.  `Except.error` is the state in which a failed assertion aborted the call:
only local buffers were touched until then. -/
def WriteBatch {α : Type} (c : ElementCodec α) (assertsOn : Bool) (w : OSMElementCacheWriter)
    (elements : List (Key × α)) (_concurrent : Bool) :
    Except OSMElementCacheWriter OSMElementCacheWriter :=
  match serializeBatch c assertsOn elements with
  | none => Except.error w
  | some (data, elementsOffsets) =>
    let (w, dataOffset) := appendLocked w data
    Except.ok (indexLocked w dataOffset elementsOffsets)

/-- Modelled from the spec: `OSMElementCacheWriter::SaveOffsets` is only declared in the
header.  "`saveOffsets()` finalizes and flushes the Key/Offset Index (see `writeAll`)."  The
result is the content of the offset file. -/
def SaveOffsets (w : OSMElementCacheWriter) : List Element := w.m_offsets.WriteAll

end OSMElementCacheWriter

/-- A call on an `OSMElementCacheWriter`: a single `Write` or a batch `Write`. -/
inductive WriteCall (α : Type) where
  | single (id : Key) (value : α)
  | batch (elements : List (Key × α)) (concurrent : Bool)

namespace WriteCall

/-- The `(key, element)` pairs that a call writes, in order. -/
def pairs {α : Type} : WriteCall α → List (Key × α)
  | single id value => [(id, value)]
  | batch elements _ => elements

/-- The call performed on the writer `w`. -/
def run {α : Type} (c : ElementCodec α) (assertsOn : Bool) (w : OSMElementCacheWriter) :
    WriteCall α → Except OSMElementCacheWriter OSMElementCacheWriter
  | single id value => w.Write c assertsOn id value
  | batch elements concurrent => w.WriteBatch c assertsOn elements concurrent

end WriteCall

/-- A sequence of calls performed in order on the writer `w`; an aborted call ends it. -/
def runCalls {α : Type} (c : ElementCodec α) (assertsOn : Bool) :
    OSMElementCacheWriter → List (WriteCall α) → Except OSMElementCacheWriter OSMElementCacheWriter
  | w, [] => Except.ok w
  | w, call :: rest =>
    match call.run c assertsOn w with
    | Except.ok w => runCalls c assertsOn w rest
    | Except.error w => Except.error w

/-- All `(key, element)` pairs of a sequence of calls, in the order written. -/
def writtenPairs {α : Type} (calls : List (WriteCall α)) : List (Key × α) :=
  calls.flatMap WriteCall.pairs

/-! ## `OSMElementCacheReader` -/

/-- The class `OSMElementCacheReader`: the mapped data file and the offset index. -/
structure OSMElementCacheReader where
  m_fileMap : List Byte
  m_offsetsReader : IndexFileReader
  deriving DecidableEq, Repr

namespace OSMElementCacheReader

/-- Modelled from the spec: the constructor `OSMElementCacheReader(name)` is only declared
in the header.  "Construction memory-maps the data file read-only and loads the paired
Key/Offset Index." -/
def load (dataFile : List Byte) (offsetFile : List Element) : OSMElementCacheReader :=
  { m_fileMap := dataFile, m_offsetsReader := IndexFileReader.load offsetFile }

/-- The `n` bytes of the mapped file from `pos` on; `none` when they are not all inside
the mapping, where the source's unchecked access is undefined. -/
def mapped (file : List Byte) (pos n : Nat) : Option (List Byte) :=
  if pos + n ≤ file.length then some ((file.drop pos).take n) else none

/-- The member template `Read(Key id, Value & value)`.  `some (b, v)` is the returned
`bool` and the content of `value` after the call; `none` is an access outside the mapped
file. -/
def Read {α : Type} (c : ElementCodec α) (r : OSMElementCacheReader) (id : Key) (value : α) :
    Option (Bool × α) :=
  match r.m_offsetsReader.GetValueByKey id with
  | none => some (false, value)
  | some pos =>
    match mapped r.m_fileMap pos 4 with
    | none => none
    | some header =>
      let valueSize := decodeU32 header
      let valueOffset := pos + 4
      match mapped r.m_fileMap valueOffset valueSize with
      | none => none
      | some bytes => some (true, c.Read value bytes)

end OSMElementCacheReader

/-- The reader opened on the files that the writer `w` leaves after `SaveOffsets`. -/
def reopened (w : OSMElementCacheWriter) : OSMElementCacheReader :=
  OSMElementCacheReader.load w.m_fileWriter w.SaveOffsets

/-- An element type for examples: a byte string that serializes to itself. -/
def rawCodec : ElementCodec (List Byte) := { Write := fun e => e, Read := fun _ bytes => bytes }

/-! ## `IntermediateDataReader` -/

/-- The class `IntermediateDataReader`, without the point storage `m_nodes` (an interface
that none of the members treated here touches). -/
structure IntermediateDataReader where
  m_ways : OSMElementCacheReader
  m_relations : OSMElementCacheReader
  m_nodeToRelations : IndexFileReader
  m_wayToRelations : IndexFileReader
  deriving DecidableEq, Repr

namespace IntermediateDataReader

/-- The call operator `ElementProcessorBase<Element, ToDo>::operator()(uint64_t id)`:
`Element e; return m_reader.Read(id, e) ? m_toDo(id, e) : base::ControlFlow::Break;`.
The value `dflt` is the default-constructed `Element e`.  The state of the traversal is
`some` state of the visitor `m_toDo`, or `none` once `Read` has accessed memory outside the
mapped file, where the behaviour of the source is undefined. -/
def ElementProcessorBase {α σ : Type} (c : ElementCodec α) (dflt : α)
    (m_reader : OSMElementCacheReader) (m_toDo : σ → Key → α → ControlFlow × σ) :
    Option σ → Value → ControlFlow × Option σ
  | none, _ => (ControlFlow.Break, none)
  | some s, id =>
    match m_reader.Read c id dflt with
    | none => (ControlFlow.Break, none)
    | some (true, e) => ((m_toDo s id e).1, some (m_toDo s id e).2)
    | some (false, _) => (ControlFlow.Break, some s)

/-- The class template `RelationProcessor<ToDo>`: `ElementProcessorBase<RelationElement,
ToDo>` with its inherited call operator. -/
def RelationProcessor {α σ : Type} (c : ElementCodec α) (dflt : α)
    (m_reader : OSMElementCacheReader) (m_toDo : σ → Key → α → ControlFlow × σ) :
    Option σ → Value → ControlFlow × Option σ :=
  ElementProcessorBase c dflt m_reader m_toDo

/-- The call operator `CachedRelationProcessor<ToDo>::operator()(uint64_t id)`:
`return this->m_toDo(id, this->m_reader);`. -/
def CachedRelationProcessor {σ : Type} (m_reader : OSMElementCacheReader)
    (m_toDo : σ → Key → OSMElementCacheReader → ControlFlow × σ) : σ → Value → ControlFlow × σ :=
  fun s id => m_toDo s id m_reader

/-- The member template `ForEachRelationByWay(Key id, ToDo && toDo)`. -/
def ForEachRelationByWay {α σ : Type} (c : ElementCodec α) (dflt : α)
    (r : IntermediateDataReader) (id : Key) (toDo : σ → Key → α → ControlFlow × σ) (s : σ) :
    Option σ :=
  r.m_wayToRelations.ForEachByKey id (RelationProcessor c dflt r.m_relations toDo) (some s)

/-- The member template `ForEachRelationByWayCached(Key id, ToDo && toDo)`. -/
def ForEachRelationByWayCached {σ : Type} (r : IntermediateDataReader) (id : Key)
    (toDo : σ → Key → OSMElementCacheReader → ControlFlow × σ) (s : σ) : σ :=
  r.m_wayToRelations.ForEachByKey id (CachedRelationProcessor r.m_relations toDo) s

/-- The member template `ForEachRelationByNodeCached(Key id, ToDo && toDo)`. -/
def ForEachRelationByNodeCached {σ : Type} (r : IntermediateDataReader) (id : Key)
    (toDo : σ → Key → OSMElementCacheReader → ControlFlow × σ) (s : σ) : σ :=
  r.m_nodeToRelations.ForEachByKey id (CachedRelationProcessor r.m_relations toDo) s

/-- A visitor of the relation traversals instrumented with a log of its invocations: each
call appends the relation id and the second argument it received and the answer it gave. -/
def recordingArgs {σ β : Type} (toDo : σ → Key → β → ControlFlow × σ) :
    σ × List (Key × β × ControlFlow) → Key → β →
      ControlFlow × (σ × List (Key × β × ControlFlow)) :=
  fun st id x => ((toDo st.1 id x).1, ((toDo st.1 id x).2, st.2 ++ [(id, x, (toDo st.1 id x).1)]))

/-- The invocations of the visitor during `ForEachRelationByWay(id, toDo)`, in order. -/
def relationCalls {α σ : Type} (c : ElementCodec α) (dflt : α) (r : IntermediateDataReader)
    (id : Key) (toDo : σ → Key → α → ControlFlow × σ) (s : σ) :
    Option (List (Key × α × ControlFlow)) :=
  (r.ForEachRelationByWay c dflt id (recordingArgs toDo) (s, [])).map Prod.snd

/-- The invocations of the visitor during `ForEachRelationByWayCached(id, toDo)`, in order. -/
def relationCallsCached {σ : Type} (r : IntermediateDataReader) (id : Key)
    (toDo : σ → Key → OSMElementCacheReader → ControlFlow × σ) (s : σ) :
    List (Key × OSMElementCacheReader × ControlFlow) :=
  (r.ForEachRelationByWayCached id (recordingArgs toDo) (s, [])).2

/-- The invocations of the visitor during `ForEachRelationByNodeCached(id, toDo)`, in
order. -/
def relationCallsByNodeCached {σ : Type} (r : IntermediateDataReader) (id : Key)
    (toDo : σ → Key → OSMElementCacheReader → ControlFlow × σ) (s : σ) :
    List (Key × OSMElementCacheReader × ControlFlow) :=
  (r.ForEachRelationByNodeCached id (recordingArgs toDo) (s, [])).2

/-- The record reads during `ForEachRelationByWay(id, toDo)`, in order: the processor is
invoked once per read, with the relation id that it reads, and the log holds this id and
the answer of the processor. -/
def relationReads {α σ : Type} (c : ElementCodec α) (dflt : α) (r : IntermediateDataReader)
    (id : Key) (toDo : σ → Key → α → ControlFlow × σ) (s : σ) : List (Value × ControlFlow) :=
  r.m_wayToRelations.calls id (RelationProcessor c dflt r.m_relations toDo) (some s)

end IntermediateDataReader

/-! ## `IntermediateDataWriter` -/

/-- The class `IntermediateDataWriter`, without the point storage `m_nodes` (an interface
that none of the members treated here touches) and without the mutexes. -/
structure IntermediateDataWriter where
  m_ways : OSMElementCacheWriter
  m_relations : OSMElementCacheWriter
  m_nodeToRelations : IndexFileWriter
  m_wayToRelations : IndexFileWriter
  deriving DecidableEq, Repr

namespace IntermediateDataWriter

/-- The static member `AddToIndex(index, relationId, std::vector<uint64_t> const & values)`:
`for (auto const v : values) index.Add(v, relationId);`. -/
def AddToIndex (index : IndexFileWriter) (relationId : Key) : List Nat → IndexFileWriter
  | [] => index
  | v :: values => AddToIndex (index.Add v relationId) relationId values

/-- The private static member template `AddToIndex(index, relationId, Container const &
values)` for a container of pairs: `for (auto const & v : values) index.Add(v.first,
relationId);`. -/
def AddToIndexMembers {ρ : Type} (index : IndexFileWriter) (relationId : Key) :
    List (Nat × ρ) → IndexFileWriter
  | [] => index
  | v :: values => AddToIndexMembers (index.Add v.1 relationId) relationId values

/-- A freshly constructed writer. -/
def empty : IntermediateDataWriter :=
  { m_ways := OSMElementCacheWriter.empty, m_relations := OSMElementCacheWriter.empty,
    m_nodeToRelations := IndexFileWriter.empty, m_wayToRelations := IndexFileWriter.empty }

end IntermediateDataWriter

/-- What the writer uses of the type `RelationElement` (generator/intermediate_elements.hpp,
not among the sources), here the type `α`: its member lists `nodes` and `ways`, containers
of `(id, role)` pairs. -/
structure RelationMembers (α ρ : Type) where
  nodes : α → List (Nat × ρ)
  ways : α → List (Nat × ρ)

namespace IntermediateDataWriter

/-- Modelled from the spec: `IntermediateDataWriter::AddRelation` is only declared in the
header.  "`addRelation(id, element)`: write the relation itself to the relations Record
Cache, and, for every member node id and member way id referenced by the relation, add an
index entry `(memberId, relationId)` into the node→relations or way→relations index
respectively."  `Except.error` is the state in which the single `Write` aborted. -/
def AddRelation {α ρ : Type} (c : ElementCodec α) (m : RelationMembers α ρ) (assertsOn : Bool)
    (w : IntermediateDataWriter) (id : Key) (e : α) :
    Except IntermediateDataWriter IntermediateDataWriter :=
  match w.m_relations.Write c assertsOn id e with
  | Except.error rel => Except.error { w with m_relations := rel }
  | Except.ok rel =>
    Except.ok { w with
      m_relations := rel
      m_nodeToRelations := AddToIndexMembers w.m_nodeToRelations id (m.nodes e)
      m_wayToRelations := AddToIndexMembers w.m_wayToRelations id (m.ways e) }

/-- The index entries of a list of relations: `AddToIndex` with the member list that
`select` picks, for one relation after the other. -/
def addAllToIndex {α ρ : Type} (select : α → List (Nat × ρ)) (index : IndexFileWriter) :
    List (Key × α) → IndexFileWriter
  | [] => index
  | relation :: rest =>
    addAllToIndex select (AddToIndexMembers index relation.1 (select relation.2)) rest

/-- Modelled from the spec: `IntermediateDataWriter::AddRelations` is only declared in the
header.  The batch form of `addRelation`: the relations go to the relations Record Cache in
one batch `Write`, and every relation adds its index entries to both reference indexes. -/
def AddRelations {α ρ : Type} (c : ElementCodec α) (m : RelationMembers α ρ) (assertsOn : Bool)
    (w : IntermediateDataWriter) (relations : List (Key × α)) (concurrent : Bool) :
    Except IntermediateDataWriter IntermediateDataWriter :=
  match w.m_relations.WriteBatch c assertsOn relations concurrent with
  | Except.error rel => Except.error { w with m_relations := rel }
  | Except.ok rel =>
    Except.ok { w with
      m_relations := rel
      m_nodeToRelations := addAllToIndex m.nodes w.m_nodeToRelations relations
      m_wayToRelations := addAllToIndex m.ways w.m_wayToRelations relations }

/-- Modelled from the spec: `IntermediateDataWriter::SaveIndex` and the constructor of
`IntermediateDataReader` are only declared in the header.  "`saveIndex()` finalizes both
Record Caches' offset indexes and both reference indexes"; the reader then opens the two
record caches and loads the two reference indexes from the files written. -/
def reopened (w : IntermediateDataWriter) : IntermediateDataReader :=
  { m_ways := cache.reopened w.m_ways,
    m_relations := cache.reopened w.m_relations,
    m_nodeToRelations := IndexFileReader.load w.m_nodeToRelations.WriteAll,
    m_wayToRelations := IndexFileReader.load w.m_wayToRelations.WriteAll }

end IntermediateDataWriter

/-- A call that adds relations to an `IntermediateDataWriter`: `AddRelation` or
`AddRelations`. -/
inductive RelationCall (α : Type) where
  | single (id : Key) (e : α)
  | batch (relations : List (Key × α)) (concurrent : Bool)

namespace RelationCall

/-- The `(id, relation)` pairs that a call adds, in order. -/
def pairs {α : Type} : RelationCall α → List (Key × α)
  | single id e => [(id, e)]
  | batch relations _ => relations

/-- The call performed on the writer `w`. -/
def run {α ρ : Type} (c : ElementCodec α) (m : RelationMembers α ρ) (assertsOn : Bool)
    (w : IntermediateDataWriter) : RelationCall α → Except IntermediateDataWriter IntermediateDataWriter
  | single id e => w.AddRelation c m assertsOn id e
  | batch relations concurrent => w.AddRelations c m assertsOn relations concurrent

end RelationCall

/-- A sequence of `AddRelation` and `AddRelations` calls performed in order on the writer
`w`; an aborted call ends it. -/
def runRelationCalls {α ρ : Type} (c : ElementCodec α) (m : RelationMembers α ρ)
    (assertsOn : Bool) :
    IntermediateDataWriter → List (RelationCall α) →
      Except IntermediateDataWriter IntermediateDataWriter
  | w, [] => Except.ok w
  | w, call :: rest =>
    match call.run c m assertsOn w with
    | Except.ok w => runRelationCalls c m assertsOn w rest
    | Except.error w => Except.error w

/-- All `(id, relation)` pairs of a sequence of calls, in the order added. -/
def relationPairs {α : Type} (calls : List (RelationCall α)) : List (Key × α) :=
  calls.flatMap RelationCall.pairs

/-! ## Notions used in the statements -/

/-- The non-strict order belonging to `ElementComparator`: by key, then by value. -/
def entryLE (a b : Nat × Nat) : Prop := a.1 < b.1 ∨ (a.1 = b.1 ∧ a.2 ≤ b.2)

/-- The entries of `xs` with a key below `k`. -/
def keysBelow (k : Nat) (xs : List (Nat × Nat)) : List (Nat × Nat) := xs.filter (fun e => decide (e.1 < k))

/-- The entries of `xs` with key `k`. -/
def keysAt (k : Nat) (xs : List (Nat × Nat)) : List (Nat × Nat) := xs.filter (fun e => decide (e.1 = k))

/-- The entries of `xs` with a key above `k`. -/
def keysAbove (k : Nat) (xs : List (Nat × Nat)) : List (Nat × Nat) := xs.filter (fun e => decide (k < e.1))

/-- The short-circuiting fold of a visitor over a list of values: the traversal that the
specification describes for `forEach` ("equivalent to a short-circuiting fold"). -/
def visitUntilBreak {σ : Type} (toDo : σ → Nat → ControlFlow × σ) : List Nat → σ → σ
  | [], s => s
  | v :: vs, s =>
    match toDo s v with
    | (ControlFlow.Break, s') => s'
    | (ControlFlow.Continue, s') => visitUntilBreak toDo vs s'

/-- The invocations that a short-circuiting traversal of `vs` makes: every value up to and
including the first one on which the visitor answers `Break`. -/
def visitLog {σ : Type} (toDo : σ → Nat → ControlFlow × σ) : List Nat → σ → List (Nat × ControlFlow)
  | [], _ => []
  | v :: vs, s =>
    match toDo s v with
    | (ControlFlow.Break, _) => [(v, ControlFlow.Break)]
    | (ControlFlow.Continue, s') => (v, ControlFlow.Continue) :: visitLog toDo vs s'

/-- The visitor invocations of a traversal of the relation ids `rs` that reads each relation
with `read`, stops without a call at the first read that does not succeed, and stops after
the first call that answers `Break`: relation id, element passed and answer. -/
def visitsOf {α σ : Type} (read : Nat → Option (Bool × α)) (toDo : σ → Nat → α → ControlFlow × σ) :
    List Nat → σ → List (Nat × α × ControlFlow)
  | [], _ => []
  | r :: rs, s =>
    match read r with
    | some (true, e) =>
      match toDo s r e with
      | (ControlFlow.Break, _) => [(r, e, ControlFlow.Break)]
      | (ControlFlow.Continue, s') => (r, e, ControlFlow.Continue) :: visitsOf read toDo rs s'
    | _ => []

/-- The order `entryLE` is decidable. -/
instance entryLE.decidable (a b : Nat × Nat) : Decidable (entryLE a b) :=
  inferInstanceAs (Decidable (a.1 < b.1 ∨ (a.1 = b.1 ∧ a.2 ≤ b.2)))

/-- The values of the entries of the index `r` with key `k`, in the order of the index. -/
def matchesOf (r : IndexFileReader) (k : Nat) : List Nat := (keysAt k r.m_elements).map Prod.snd

/-- The reference-index entries `(memberId, relationId)` of a list of relations, for the
member list that `select` picks: one entry per member, relation after relation. -/
def memberEntries {α ρ : Type} (select : α → List (Nat × ρ)) (relations : List (Key × α)) :
    List (Nat × Nat) :=
  relations.flatMap (fun p => (select p.2).map (fun mem => (mem.1, p.1)))

/-- The values added under key `k`, in the order of the `Add` calls. -/
def valuesAdded (adds : List Element) (k : Key) : List Value :=
  (adds.filter (fun e => decide (e.1 = k))).map Prod.snd

/-- The record of one element in the data file: the four bytes of its payload length, then
the payload, which is the element's serialization. -/
def recordBytes {α : Type} (c : ElementCodec α) (e : α) : List Byte :=
  encodeU32 (c.Write e).length ++ c.Write e

/-- The records of a list of `(key, element)` pairs, back to back in list order. -/
def recordsBytes {α : Type} (c : ElementCodec α) : List (Key × α) → List Byte
  | [] => []
  | p :: ps => recordBytes c p.2 ++ recordsBytes c ps

/-- The `(key, position of the length field)` pairs of the records of a list of
`(key, element)` pairs that lie back to back from position `start` on. -/
def recordOffsets {α : Type} (c : ElementCodec α) : Nat → List (Key × α) → List (Nat × Nat)
  | _, [] => []
  | start, p :: ps => (p.1, start) :: recordOffsets c (start + (4 + (c.Write p.2).length)) ps

/-- The file `file` holds the record of the element `e` at position `off`. -/
def recordAt {α : Type} (c : ElementCodec α) (file : List Byte) (off : Nat) (e : α) : Prop :=
  off + (4 + (c.Write e).length) ≤ file.length ∧
    (file.drop off).take (4 + (c.Write e).length) = recordBytes c e

/-- A sequence of calls for examples: a single write, then a batch of two elements. -/
def exampleCalls : List (WriteCall (List Byte)) :=
  [WriteCall.single 7 [1, 2], WriteCall.batch [(3, [9]), (5, [])] false]

/-- A sequence of calls for examples that writes key `1` twice. -/
def duplicateCalls : List (WriteCall (List Byte)) :=
  [WriteCall.single 1 [0], WriteCall.single 1 [1]]

/-- A writer state for examples: the record of `[1, 2]` was written under key `7`. -/
def exampleWriter : OSMElementCacheWriter :=
  { m_fileWriter := [2, 0, 0, 0, 1, 2], m_currOffset := 6, m_offsets := ⟨[(7, 0)]⟩,
    m_data := [1, 2] }

/-- A batch of two elements for examples. -/
def exampleBatch : List (Key × List Byte) := [(3, [9]), (5, [])]

/-- A reader for examples.  The relations cache holds the relations `10` and `20`; the
way→relations index names the relations `10`, `20` and `30` for way `7`. -/
def exampleReader : IntermediateDataReader :=
  { m_ways := OSMElementCacheReader.load [] [],
    m_relations := OSMElementCacheReader.load [1, 0, 0, 0, 7, 2, 0, 0, 0, 8, 9] [(10, 0), (20, 5)],
    m_nodeToRelations := IndexFileReader.load [(3, 10)],
    m_wayToRelations := IndexFileReader.load [(7, 10), (7, 20), (7, 30), (8, 20)] }

/-- A relation type for examples: the ids of the member nodes and of the member ways, each
id a byte. -/
abbrev MiniRelation := List Byte × List Byte

/-- The serialization of `MiniRelation`: the number of nodes, the nodes, the ways. -/
def miniCodec : ElementCodec MiniRelation :=
  { Write := fun e => (Fin.ofNat e.1.length : Byte) :: (e.1 ++ e.2),
    Read := fun _ bytes =>
      match bytes with
      | [] => ([], [])
      | n :: rest => (rest.take n.val, rest.drop n.val) }

/-- The member lists of `MiniRelation`, all with the same role. -/
def miniMembers : RelationMembers MiniRelation Unit :=
  { nodes := fun e => e.1.map (fun b => (b.val, ())),
    ways := fun e => e.2.map (fun b => (b.val, ())) }

/-- Calls for examples: the relation `1` with the member node `3` and the member way `7`
is added. -/
def exampleRelationCalls : List (RelationCall MiniRelation) :=
  [RelationCall.single 1 ([3], [7])]

/-! ## Batch writes of several threads -/

/-- The private state of one call of the batch `Write` between its steps: the locals `data`,
`elementsOffsets` and `dataOffset`, and the number `pc` of locked blocks that the call has
run (`0`: neither, `1`: the block under `m_fileWriterMutex`, `2`: both). -/
structure BatchCall where
  data : List Byte
  elementsOffsets : List (Key × Nat)
  dataOffset : Nat
  pc : Nat
  deriving DecidableEq, Repr

namespace BatchCall

/-- The unlocked part of the batch `Write` (lines 186-198), which touches local state only. -/
def start {α : Type} (c : ElementCodec α) (assertsOn : Bool) (elements : List (Key × α)) :
    Option BatchCall :=
  match OSMElementCacheWriter.serializeBatch c assertsOn elements with
  | none => none
  | some (data, elementsOffsets) =>
    some { data := data, elementsOffsets := elementsOffsets, dataOffset := 0, pc := 0 }

/-- The next locked block of the call, run on the shared writer `w` while the call holds the
mutex of that block: first the block under `m_fileWriterMutex` (lines 202-207), then the
block under `m_offsetsMutex` (lines 209-213). -/
def step (w : OSMElementCacheWriter) (t : BatchCall) : OSMElementCacheWriter × BatchCall :=
  match t.pc with
  | 0 => ((w.appendLocked t.data).1, { t with dataOffset := (w.appendLocked t.data).2, pc := 1 })
  | 1 => (w.indexLocked t.dataOffset t.elementsOffsets, { t with pc := 2 })
  | _ => (w, t)

end BatchCall

/-- A payload for examples that the 32-bit length field cannot describe: `2^32` zero bytes. -/
def hugePayload : List Byte := List.replicate 4294967296 0

/-- A batch for examples whose second element has the payload `hugePayload`. -/
def oversizeBatch : List (Key × List Byte) := [(1, [5]), (2, hugePayload)]

/-! ## The order of `ElementComparator` and the sort of `WriteAll` -/

theorem lessEE_eq_true_iff (a b : Nat × Nat) :
    ElementComparator.lessEE a b = true ↔ (a.1 < b.1 ∨ (a.1 = b.1 ∧ a.2 < b.2)) := by
  unfold ElementComparator.lessEE
  simp only [Key, Value, Element]
  split <;> simp <;> omega

theorem lessEE_eq_false_iff (a b : Nat × Nat) :
    ElementComparator.lessEE a b = false ↔ entryLE b a := by
  unfold ElementComparator.lessEE entryLE
  simp only [Key, Value, Element]
  split <;> simp <;> omega

theorem lessEK_iff (x : Nat × Nat) (k : Nat) : ElementComparator.lessEK x k = true ↔ x.1 < k := by
  simp [ElementComparator.lessEK]

theorem lessKE_iff (k : Nat) (x : Nat × Nat) : ElementComparator.lessKE k x = true ↔ k < x.1 := by
  simp [ElementComparator.lessKE]

theorem entryLE_trans {a b c : Nat × Nat} (h1 : entryLE a b) (h2 : entryLE b c) : entryLE a c := by
  unfold entryLE at *
  omega

theorem sortInsert_perm (e : Nat × Nat) (xs : List (Nat × Nat)) :
    (IndexFileWriter.sortInsert e xs).Perm (e :: xs) := by
  induction xs with
  | nil => exact List.Perm.refl _
  | cons x xs ih =>
    unfold IndexFileWriter.sortInsert
    split
    · exact List.Perm.refl _
    · exact (List.Perm.cons x ih).trans (List.Perm.swap e x xs)

theorem sortElements_perm (xs : List (Nat × Nat)) : (IndexFileWriter.sortElements xs).Perm xs := by
  induction xs with
  | nil => exact List.Perm.refl _
  | cons e es ih =>
    unfold IndexFileWriter.sortElements
    exact (sortInsert_perm e _).trans (List.Perm.cons e ih)

theorem sortInsert_sorted (e : Nat × Nat) (xs : List (Nat × Nat)) (h : xs.Pairwise entryLE) :
    (IndexFileWriter.sortInsert e xs).Pairwise entryLE := by
  induction xs with
  | nil => simp [IndexFileWriter.sortInsert]
  | cons x xs ih =>
    rw [List.pairwise_cons] at h
    unfold IndexFileWriter.sortInsert
    split
    · rename_i hlt
      rw [lessEE_eq_true_iff] at hlt
      have hex : entryLE e x := by unfold entryLE; omega
      refine List.pairwise_cons.mpr ⟨?_, List.pairwise_cons.mpr h⟩
      intro y hy
      rcases List.mem_cons.mp hy with rfl | hy
      · exact hex
      · exact entryLE_trans hex (h.1 y hy)
    · rename_i hlt
      have hxe : entryLE x e := by
        rw [← lessEE_eq_false_iff]
        simpa using hlt
      refine List.pairwise_cons.mpr ⟨?_, ih h.2⟩
      intro y hy
      rcases List.mem_cons.mp ((sortInsert_perm e xs).subset hy) with rfl | hy
      · exact hxe
      · exact h.1 y hy

theorem sortElements_sorted (xs : List (Nat × Nat)) :
    (IndexFileWriter.sortElements xs).Pairwise entryLE := by
  induction xs with
  | nil => simp [IndexFileWriter.sortElements]
  | cons e es ih =>
    unfold IndexFileWriter.sortElements
    exact sortInsert_sorted e _ ih

theorem addAll_elements (w : IndexFileWriter) (es : List (Nat × Nat)) :
    (IndexFileWriter.addAll w es).m_elements = w.m_elements ++ es := by
  induction es generalizing w with
  | nil => simp [IndexFileWriter.addAll]
  | cons e es ih =>
    obtain ⟨k, v⟩ := e
    simp [IndexFileWriter.addAll, ih, IndexFileWriter.Add]

theorem reloaded_elements (adds : List (Nat × Nat)) :
    (reloaded adds).m_elements = IndexFileWriter.sortElements adds := by
  simp [reloaded, IndexFileReader.load, IndexFileWriter.WriteAll, addAll_elements,
    IndexFileWriter.empty]

/-! ## A sorted index splits into the keys below, at and above `k` -/

theorem sorted_split (k : Nat) (xs : List (Nat × Nat)) (h : xs.Pairwise entryLE) :
    xs = keysBelow k xs ++ keysAt k xs ++ keysAbove k xs := by
  induction xs with
  | nil => simp [keysBelow, keysAt, keysAbove]
  | cons x xs ih =>
    rw [List.pairwise_cons] at h
    have ih := ih h.2
    have hle : ∀ y ∈ xs, x.1 ≤ y.1 := fun y hy => by
      have := h.1 y hy
      unfold entryLE at this
      omega
    rcases Nat.lt_trichotomy x.1 k with hx | hx | hx
    · have e1 : keysBelow k (x :: xs) = x :: keysBelow k xs := by simp [keysBelow, hx]
      have e2 : keysAt k (x :: xs) = keysAt k xs := by
        simp [keysAt, List.filter_cons, Nat.ne_of_lt hx]
      have e3 : keysAbove k (x :: xs) = keysAbove k xs := by
        simp [keysAbove, List.filter_cons, Nat.lt_asymm hx]
      rw [e1, e2, e3]
      simpa using ih
    · have e1 : keysBelow k (x :: xs) = [] := by
        simp only [keysBelow, List.filter_eq_nil_iff]
        intro y hy
        rcases List.mem_cons.mp hy with rfl | hy
        · simp [hx]
        · have := hle y hy
          simp; omega
      have e0 : keysBelow k xs = [] := by
        simp only [keysBelow, List.filter_eq_nil_iff]
        intro y hy
        have := hle y hy
        simp; omega
      have e2 : keysAt k (x :: xs) = x :: keysAt k xs := by simp [keysAt, hx]
      have e3 : keysAbove k (x :: xs) = keysAbove k xs := by
        simp [keysAbove, List.filter_cons, hx]
      rw [e1, e2, e3]
      rw [e0] at ih
      simpa using ih
    · have e1 : keysBelow k (x :: xs) = [] := by
        simp only [keysBelow, List.filter_eq_nil_iff]
        intro y hy
        rcases List.mem_cons.mp hy with rfl | hy
        · simp; omega
        · have := hle y hy
          simp; omega
      have e2 : keysAt k (x :: xs) = [] := by
        simp only [keysAt, List.filter_eq_nil_iff]
        intro y hy
        rcases List.mem_cons.mp hy with rfl | hy
        · simp; omega
        · have := hle y hy
          simp; omega
      have e3 : keysAbove k (x :: xs) = x :: xs := by
        simp only [keysAbove, List.filter_eq_self]
        intro y hy
        rcases List.mem_cons.mp hy with rfl | hy
        · simp; omega
        · have := hle y hy
          simp; omega
      rw [e1, e2, e3]
      rfl

/-! ## The binary searches on a partitioned sequence -/

theorem getD_append_left_of_lt (l1 l2 : List (Nat × Nat)) (i : Nat) (h : i < l1.length) :
    (l1 ++ l2).getD i (0, 0) ∈ l1 := by
  rw [List.getD_eq_getElem?_getD, List.getElem?_append_left h, List.getElem?_eq_getElem h]
  simp

theorem getD_append_right_of_le (l1 l2 : List (Nat × Nat)) (i : Nat) (h : l1.length ≤ i)
    (h2 : i < l1.length + l2.length) : (l1 ++ l2).getD i (0, 0) ∈ l2 := by
  rw [List.getD_eq_getElem?_getD, List.getElem?_append_right h,
    List.getElem?_eq_getElem (by omega)]
  simp

theorem boundLoop_partitioned (goRight : Nat × Nat → Bool) (l1 l2 : List (Nat × Nat))
    (h1 : ∀ x ∈ l1, goRight x = true) (h2 : ∀ x ∈ l2, goRight x = false) :
    ∀ (fuel first count : Nat), count ≤ fuel → first ≤ l1.length →
      l1.length ≤ first + count → first + count ≤ l1.length + l2.length →
      boundLoop goRight (l1 ++ l2) fuel first count = l1.length := by
  intro fuel
  induction fuel with
  | zero =>
    intro first count hc hf hl _
    simp [boundLoop]; omega
  | succ fuel ih =>
    intro first count hc hf hl hu
    unfold boundLoop
    by_cases hz : count = 0
    · simp [hz]; omega
    · simp only [hz, if_false]
      by_cases hg : goRight ((l1 ++ l2).getD (first + count / 2) (0, 0)) = true
      · simp only [hg, if_true]
        have hlt : first + count / 2 < l1.length := by
          by_contra hne
          have := h2 _ (getD_append_right_of_le l1 l2 (first + count / 2) (by omega) (by omega))
          rw [this] at hg
          exact Bool.noConfusion hg
        exact ih _ _ (by omega) (by omega) (by omega) (by omega)
      · simp only [hg]
        have hge : l1.length ≤ first + count / 2 := by
          by_contra hne
          have := h1 _ (getD_append_left_of_lt l1 l2 (first + count / 2) (by omega))
          exact hg this
        exact ih _ _ (by omega) hf (by omega) (by omega)

theorem lower_bound_sorted (k : Nat) (xs : List (Nat × Nat)) (h : xs.Pairwise entryLE) :
    lower_bound xs k = (keysBelow k xs).length := by
  unfold lower_bound
  have hs := sorted_split k xs h
  have hlen : xs.length = (keysBelow k xs).length + (keysAt k xs ++ keysAbove k xs).length := by
    conv_lhs => rw [hs]
    simp [Nat.add_assoc]
  generalize hn : xs.length = n at hlen
  conv_lhs => rw [hs, List.append_assoc]
  apply boundLoop_partitioned
  · intro x hx
    have := (List.mem_filter.mp hx).2
    simp only [decide_eq_true_eq] at this
    exact (lessEK_iff x k).mpr this
  · intro x hx
    have hnot : ¬ x.1 < k := by
      rcases List.mem_append.mp hx with hx | hx
      · have := (List.mem_filter.mp hx).2
        simp only [decide_eq_true_eq] at this
        omega
      · have := (List.mem_filter.mp hx).2
        simp only [decide_eq_true_eq] at this
        omega
    rw [← lessEK_iff] at hnot
    simpa using hnot
  · exact Nat.le_refl _
  · exact Nat.zero_le _
  · omega
  · omega

theorem upper_bound_sorted (k : Nat) (xs : List (Nat × Nat)) (h : xs.Pairwise entryLE) :
    upper_bound xs k = (keysBelow k xs).length + (keysAt k xs).length := by
  unfold upper_bound
  have hs := sorted_split k xs h
  have hlen : xs.length = (keysBelow k xs ++ keysAt k xs).length + (keysAbove k xs).length := by
    conv_lhs => rw [hs]
    simp only [List.length_append]
  generalize hn : xs.length = n at hlen
  conv_lhs => rw [hs]
  rw [← List.length_append]
  apply boundLoop_partitioned
  · intro x hx
    have hnot : ¬ k < x.1 := by
      rcases List.mem_append.mp hx with hx | hx
      · have := (List.mem_filter.mp hx).2
        simp only [decide_eq_true_eq] at this
        omega
      · have := (List.mem_filter.mp hx).2
        simp only [decide_eq_true_eq] at this
        omega
    rw [← lessKE_iff] at hnot
    simpa using hnot
  · intro x hx
    have := (List.mem_filter.mp hx).2
    simp only [decide_eq_true_eq] at this
    simpa using (lessKE_iff k x).mpr this
  · exact Nat.le_refl _
  · exact Nat.zero_le _
  · omega
  · omega

/-! ## `ForEachByKey` and `GetValueByKey` on a sorted index -/

theorem getD_middle (A C : List (Nat × Nat)) (b : Nat × Nat) (B : List (Nat × Nat)) :
    (A ++ (b :: B) ++ C).getD A.length (0, 0) = b := by
  rw [List.getD_eq_getElem?_getD, List.append_assoc, List.getElem?_append_right (Nat.le_refl _)]
  simp

theorem forEachLoop_segment {σ : Type} (toDo : σ → Nat → ControlFlow × σ) (C : List (Nat × Nat)) :
    ∀ (B A : List (Nat × Nat)) (s : σ),
      IndexFileReader.forEachLoop (A ++ B ++ C) toDo B.length A.length s
        = visitUntilBreak toDo (B.map Prod.snd) s := by
  intro B
  induction B with
  | nil => intro A s; rfl
  | cons b B ih =>
    intro A s
    simp only [List.length_cons, List.map_cons, IndexFileReader.forEachLoop, visitUntilBreak]
    rw [getD_middle]
    have hstep := ih (A ++ [b])
    simp only [List.length_append, List.length_singleton, List.append_assoc,
      List.singleton_append] at hstep
    rcases h : toDo s b.2 with ⟨cf, s'⟩
    cases cf
    · rfl
    · simp only
      rw [← hstep s']
      simp [List.append_assoc]

theorem ForEachByKey_sorted {σ : Type} (r : IndexFileReader) (k : Nat)
    (toDo : σ → Nat → ControlFlow × σ) (s : σ) (h : r.m_elements.Pairwise entryLE) :
    r.ForEachByKey k toDo s = visitUntilBreak toDo ((keysAt k r.m_elements).map Prod.snd) s := by
  unfold IndexFileReader.ForEachByKey equal_range
  simp only [lower_bound_sorted k _ h, upper_bound_sorted k _ h, Nat.add_sub_cancel_left]
  have hs := sorted_split k r.m_elements h
  generalize keysBelow k r.m_elements = A at hs ⊢
  generalize keysAt k r.m_elements = B at hs ⊢
  generalize keysAbove k r.m_elements = C at hs ⊢
  rw [hs]
  exact forEachLoop_segment toDo C B A s

theorem visit_recording {σ : Type} (toDo : σ → Nat → ControlFlow × σ) :
    ∀ (vs : List Nat) (s : σ) (log : List (Nat × ControlFlow)),
      (visitUntilBreak (IndexFileReader.recording toDo) vs (s, log)).2
        = log ++ visitLog toDo vs s := by
  intro vs
  induction vs with
  | nil => intro s log; simp [visitUntilBreak, visitLog]
  | cons v vs ih =>
    intro s log
    simp only [visitUntilBreak, visitLog, IndexFileReader.recording]
    rcases h : toDo s v with ⟨cf, s'⟩
    cases cf
    · simp
    · simp only
      rw [ih]
      simp

theorem calls_sorted {σ : Type} (r : IndexFileReader) (k : Nat)
    (toDo : σ → Nat → ControlFlow × σ) (s : σ) (h : r.m_elements.Pairwise entryLE) :
    r.calls k toDo s = visitLog toDo ((keysAt k r.m_elements).map Prod.snd) s := by
  unfold IndexFileReader.calls
  rw [ForEachByKey_sorted r k _ _ h, visit_recording]
  simp

theorem keysAt_values_sorted (k : Nat) (xs : List (Nat × Nat)) (h : xs.Pairwise entryLE) :
    ((keysAt k xs).map Prod.snd).Pairwise (fun a b => a ≤ b) := by
  rw [List.pairwise_map]
  have hsub : (keysAt k xs).Pairwise entryLE := h.sublist (List.filter_sublist xs)
  refine List.Pairwise.imp_of_mem ?_ hsub
  intro a b ha hb hab
  have h1 := (List.mem_filter.mp ha).2
  have h2 := (List.mem_filter.mp hb).2
  simp only [decide_eq_true_eq] at h1 h2
  unfold entryLE at hab
  omega

theorem keysAt_values_perm (k : Nat) (adds : List (Nat × Nat)) :
    ((keysAt k (IndexFileWriter.sortElements adds)).map Prod.snd).Perm (valuesAdded adds k) := by
  unfold keysAt valuesAdded
  exact ((sortElements_perm adds).filter _).map _

theorem visitLog_length_le {σ : Type} (toDo : σ → Nat → ControlFlow × σ) :
    ∀ (vs : List Nat) (s : σ), (visitLog toDo vs s).length ≤ vs.length := by
  intro vs
  induction vs with
  | nil => intro s; simp [visitLog]
  | cons v vs ih =>
    intro s
    simp only [visitLog]
    rcases h : toDo s v with ⟨cf, s'⟩
    cases cf
    · simp
    · simpa using ih s'

theorem visitLog_values {σ : Type} (toDo : σ → Nat → ControlFlow × σ) :
    ∀ (vs : List Nat) (s : σ),
      (visitLog toDo vs s).map Prod.fst = vs.take (visitLog toDo vs s).length := by
  intro vs
  induction vs with
  | nil => intro s; simp [visitLog]
  | cons v vs ih =>
    intro s
    simp only [visitLog]
    rcases h : toDo s v with ⟨cf, s'⟩
    cases cf
    · simp
    · simpa using ih s'

theorem visitLog_answers {σ : Type} (toDo : σ → Nat → ControlFlow × σ) :
    ∀ (vs : List Nat) (s : σ),
      ∀ d ∈ ((visitLog toDo vs s).map Prod.snd).dropLast, d = ControlFlow.Continue := by
  intro vs
  induction vs with
  | nil => intro s d hd; simp [visitLog] at hd
  | cons v vs ih =>
    intro s d hd
    simp only [visitLog] at hd
    rcases h : toDo s v with ⟨cf, s'⟩
    rw [h] at hd
    cases cf
    · simp at hd
    · simp only [List.map_cons] at hd
      by_cases hnil : (visitLog toDo vs s').map Prod.snd = []
      · rw [hnil] at hd
        simp at hd
      · rw [List.dropLast_cons_of_ne_nil hnil] at hd
        rcases List.mem_cons.mp hd with rfl | hd
        · rfl
        · exact ih s' d hd

theorem visitLog_stopped {σ : Type} (toDo : σ → Nat → ControlFlow × σ) :
    ∀ (vs : List Nat) (s : σ), (visitLog toDo vs s).length < vs.length →
      ((visitLog toDo vs s).map Prod.snd).getLast? = some ControlFlow.Break := by
  intro vs
  induction vs with
  | nil => intro s h; simp at h
  | cons v vs ih =>
    intro s hlt
    simp only [visitLog] at hlt ⊢
    rcases h : toDo s v with ⟨cf, s'⟩
    rw [h] at hlt
    cases cf
    · simp
    · simp only [List.length_cons, Nat.add_lt_add_iff_right] at hlt
      have := ih s' hlt
      simp only [List.map_cons]
      cases hl : (visitLog toDo vs s').map Prod.snd with
      | nil => rw [hl] at this; simp at this
      | cons x xs =>
        rw [hl] at this
        rw [List.getLast?_cons_cons]
        exact this

theorem visitLog_all_continue {σ : Type} (toDo : σ → Nat → ControlFlow × σ)
    (hc : ∀ s v, (toDo s v).1 = ControlFlow.Continue) :
    ∀ (vs : List Nat) (s : σ), (visitLog toDo vs s).map Prod.fst = vs := by
  intro vs
  induction vs with
  | nil => intro s; simp [visitLog]
  | cons v vs ih =>
    intro s
    simp only [visitLog]
    have := hc s v
    rcases h : toDo s v with ⟨cf, s'⟩
    rw [h] at this
    simp only at this
    subst this
    simpa using ih s'

theorem getValueByKey_sorted_some (r : IndexFileReader) (k : Nat) (b : Nat × Nat)
    (B : List (Nat × Nat)) (h : r.m_elements.Pairwise entryLE)
    (hB : keysAt k r.m_elements = b :: B) : r.GetValueByKey k = some b.2 := by
  unfold IndexFileReader.GetValueByKey
  simp only [lower_bound_sorted k _ h]
  have hs := sorted_split k r.m_elements h
  rw [hB] at hs
  have hb : b.1 = k := by
    have : b ∈ keysAt k r.m_elements := by rw [hB]; exact List.mem_cons_self _ _
    simpa using (List.mem_filter.mp this).2
  generalize keysBelow k r.m_elements = A at hs ⊢
  generalize keysAbove k r.m_elements = C at hs ⊢
  rw [hs, getD_middle]
  rw [if_pos]
  refine ⟨?_, hb⟩
  simp only [List.length_append, List.length_cons]
  omega

theorem getValueByKey_sorted_none (r : IndexFileReader) (k : Nat)
    (h : r.m_elements.Pairwise entryLE) (hB : keysAt k r.m_elements = []) :
    r.GetValueByKey k = none := by
  unfold IndexFileReader.GetValueByKey
  simp only [lower_bound_sorted k _ h]
  have hs := sorted_split k r.m_elements h
  rw [hB, List.append_nil] at hs
  have hC : ∀ e ∈ keysAbove k r.m_elements, k < e.1 := by
    intro e he
    simpa using (List.mem_filter.mp he).2
  generalize keysBelow k r.m_elements = A at hs ⊢
  generalize keysAbove k r.m_elements = C at hs hC ⊢
  rw [hs, if_neg]
  rintro ⟨h1, h2⟩
  have hmem := getD_append_right_of_le A C A.length (Nat.le_refl _)
    (by simpa only [List.length_append] using h1)
  exact absurd h2 (Nat.ne_of_gt (hC _ hmem))

theorem keysAt_eq_nil_iff (k : Nat) (adds : List (Nat × Nat)) :
    keysAt k (IndexFileWriter.sortElements adds) = [] ↔ ∀ v, (k, v) ∉ adds := by
  unfold keysAt
  rw [List.filter_eq_nil_iff]
  constructor
  · intro h v hv
    have := h (k, v) ((sortElements_perm adds).mem_iff.mpr hv)
    simp at this
  · intro h e he
    have he' := (sortElements_perm adds).mem_iff.mp he
    simp only [decide_eq_true_eq]
    intro hk
    exact h e.2 (by rw [← hk]; exact he')

theorem visitLog_break_first {σ : Type} (toDo : σ → Nat → ControlFlow × σ) (v : Nat)
    (rest : List Nat) (s : σ) (hb : (toDo s v).1 = ControlFlow.Break) :
    visitLog toDo (v :: rest) s = [(v, ControlFlow.Break)] := by
  simp only [visitLog]
  rcases h : toDo s v with ⟨cf, s'⟩
  rw [h] at hb
  simp only at hb
  subst hb
  rfl

theorem keysAt_head_le (k : Nat) (xs : List (Nat × Nat)) (h : xs.Pairwise entryLE)
    (b : Nat × Nat) (B : List (Nat × Nat)) (hB : keysAt k xs = b :: B) :
    b.1 = k ∧ b ∈ xs ∧ ∀ v, (k, v) ∈ xs → b.2 ≤ v := by
  have hmem : b ∈ keysAt k xs := by rw [hB]; exact List.mem_cons_self _ _
  have hb := List.mem_filter.mp hmem
  have hbk : b.1 = k := by simpa using hb.2
  refine ⟨hbk, hb.1, ?_⟩
  intro v hv
  have hv2 : (k, v) ∈ keysAt k xs := List.mem_filter.mpr ⟨hv, by simp⟩
  have hsub : (keysAt k xs).Pairwise entryLE := h.sublist (List.filter_sublist xs)
  rw [hB] at hv2 hsub
  rcases List.mem_cons.mp hv2 with heq | hin
  · rw [← heq]
  · have := (List.pairwise_cons.mp hsub).1 _ hin
    unfold entryLE at this
    simp only at this
    omega

/-! ## The length field and `MemWriter` -/

theorem encodeU32_length (n : Nat) : (encodeU32 n).length = 4 := rfl

theorem decodeU32_encodeU32 (n : Nat) (h : n < 4294967296) : decodeU32 (encodeU32 n) = n := by
  simp only [encodeU32, decodeU32]
  omega

theorem castU32_of_lt (n : Nat) (h : n < UINT32_MAX) : castU32 n = n := by
  unfold castU32
  unfold UINT32_MAX at h
  omega

theorem ASSERT_LESS_of_lt (a : Bool) (x y : Nat) (h : x < y) : ASSERT_LESS a x y = true := by
  simp [ASSERT_LESS, h]

theorem checked_castU32_of_lt (a : Bool) (n : Nat) (h : n < UINT32_MAX) :
    checked_castU32 a n = some n := by
  unfold checked_castU32
  rw [castU32_of_lt n h]
  simp

theorem MemWriter_Write_end (D bytes : List Byte) :
    (MemWriter.mk D D.length).Write bytes = ⟨D ++ bytes, D.length + bytes.length⟩ := by
  simp [MemWriter.Write]

theorem MemWriter_Write_patch (D old bytes rest : List Byte) (h : old.length = bytes.length) :
    (MemWriter.mk (D ++ old ++ rest) D.length).Write bytes
      = ⟨D ++ bytes ++ rest, D.length + bytes.length⟩ := by
  simp [MemWriter.Write, ← h]

theorem recordBytes_length {α : Type} (c : ElementCodec α) (e : α) :
    (recordBytes c e).length = 4 + (c.Write e).length := by
  simp [recordBytes, encodeU32_length]

theorem WriteValue_ok {α : Type} (c : ElementCodec α) (a : Bool) (e : α) (D : List Byte)
    (h : (c.Write e).length < UINT32_MAX) :
    OSMElementCacheWriter.WriteValue c a e ⟨D, D.length⟩
      = some ⟨D ++ recordBytes c e, (D ++ recordBytes c e).length⟩ := by
  unfold OSMElementCacheWriter.WriteValue
  simp only [MemWriter.Pos, MemWriter.Seek]
  rw [MemWriter_Write_end]
  have e1 : D.length + (encodeU32 0).length = (D ++ encodeU32 0).length := by simp
  rw [e1, MemWriter_Write_end]
  simp only [List.length_append, encodeU32_length]
  have e2 : D.length + 4 + (c.Write e).length - (D.length + 4) = (c.Write e).length := by omega
  rw [e2, checked_castU32_of_lt a _ h]
  simp only [ASSERT_LESS_of_lt a _ _ h, if_true]
  have e3 := MemWriter_Write_patch D (encodeU32 0) (encodeU32 (c.Write e).length) (c.Write e) rfl
  rw [e3]
  simp [recordBytes, encodeU32_length, Nat.add_assoc]

/-! ## What the two `Write` members append -/

theorem recordsBytes_append {α : Type} (c : ElementCodec α) (xs ys : List (Key × α)) :
    recordsBytes c (xs ++ ys) = recordsBytes c xs ++ recordsBytes c ys := by
  induction xs with
  | nil => rfl
  | cons x xs ih => simp [recordsBytes, ih]

theorem recordOffsets_append {α : Type} (c : ElementCodec α) (xs ys : List (Key × α)) :
    ∀ start : Nat, recordOffsets c start (xs ++ ys)
      = recordOffsets c start xs ++ recordOffsets c (start + (recordsBytes c xs).length) ys := by
  induction xs with
  | nil => intro start; simp [recordOffsets, recordsBytes]
  | cons x xs ih =>
    intro start
    simp [recordOffsets, recordsBytes, ih, recordBytes_length, Nat.add_assoc]

theorem recordOffsets_shift {α : Type} (c : ElementCodec α) (ps : List (Key × α)) :
    ∀ base start : Nat, (recordOffsets c start ps).map (fun e => (e.1, base + e.2))
      = recordOffsets c (base + start) ps := by
  induction ps with
  | nil => intro base start; rfl
  | cons p ps ih =>
    intro base start
    simp [recordOffsets, ih, Nat.add_assoc]

theorem serializeLoop_ok {α : Type} (c : ElementCodec α) (a : Bool) :
    ∀ (elements : List (Key × α)) (D : List Byte) (acc : List (Nat × Nat)),
      (∀ p ∈ elements, (c.Write p.2).length < UINT32_MAX) →
      OSMElementCacheWriter.serializeLoop c a elements ⟨D, D.length⟩ acc
        = some (⟨D ++ recordsBytes c elements, (D ++ recordsBytes c elements).length⟩,
            acc ++ recordOffsets c D.length elements) := by
  intro elements
  induction elements with
  | nil => intro D acc _; simp [OSMElementCacheWriter.serializeLoop, recordsBytes, recordOffsets]
  | cons p ps ih =>
    intro D acc hb
    unfold OSMElementCacheWriter.serializeLoop
    simp only [MemWriter.Pos]
    rw [WriteValue_ok c a p.2 D (hb p (List.mem_cons_self _ _))]
    simp only
    rw [ih (D ++ recordBytes c p.2) _ (fun q hq => hb q (List.mem_cons_of_mem _ hq))]
    simp [recordsBytes, recordOffsets, recordBytes_length, Nat.add_assoc]

theorem serializeBatch_ok {α : Type} (c : ElementCodec α) (a : Bool) (elements : List (Key × α))
    (hb : ∀ p ∈ elements, (c.Write p.2).length < UINT32_MAX) :
    OSMElementCacheWriter.serializeBatch c a elements
      = some (recordsBytes c elements, recordOffsets c 0 elements) := by
  unfold OSMElementCacheWriter.serializeBatch
  have := serializeLoop_ok c a elements [] [] hb
  simp only [List.length_nil, List.nil_append] at this
  rw [this]

theorem indexLocked_eq (dataOffset : Nat) :
    ∀ (eo : List (Nat × Nat)) (w : OSMElementCacheWriter),
      OSMElementCacheWriter.indexLocked w dataOffset eo
        = { w with m_offsets :=
              ⟨w.m_offsets.m_elements ++ eo.map (fun e => (e.1, dataOffset + e.2))⟩ } := by
  intro eo
  induction eo with
  | nil => intro w; simp [OSMElementCacheWriter.indexLocked]
  | cons e eo ih =>
    intro w
    simp [OSMElementCacheWriter.indexLocked, ih, IndexFileWriter.Add]

theorem Write_ok {α : Type} (c : ElementCodec α) (a : Bool) (w : OSMElementCacheWriter)
    (id : Nat) (value : α) (h : (c.Write value).length < UINT32_MAX) :
    w.Write c a id value = Except.ok
      { m_fileWriter := w.m_fileWriter ++ recordBytes c value,
        m_currOffset := w.m_currOffset + (4 + (c.Write value).length),
        m_offsets := ⟨w.m_offsets.m_elements ++ [(id, w.m_currOffset)]⟩,
        m_data := c.Write value } := by
  unfold OSMElementCacheWriter.Write
  have e1 : (MemWriter.mk [] 0).Write (c.Write value) = ⟨c.Write value, (c.Write value).length⟩ := by
    simpa using MemWriter_Write_end [] (c.Write value)
  simp only [e1, ASSERT_LESS_of_lt a _ _ h, if_true, castU32_of_lt _ h, List.take_length]
  simp [recordBytes, IndexFileWriter.Add]

theorem WriteBatch_ok {α : Type} (c : ElementCodec α) (a : Bool) (w : OSMElementCacheWriter)
    (elements : List (Key × α)) (concurrent : Bool)
    (hb : ∀ p ∈ elements, (c.Write p.2).length < UINT32_MAX) :
    w.WriteBatch c a elements concurrent = Except.ok
      { m_fileWriter := w.m_fileWriter ++ recordsBytes c elements,
        m_currOffset := w.m_currOffset + (recordsBytes c elements).length,
        m_offsets := ⟨w.m_offsets.m_elements ++ recordOffsets c w.m_currOffset elements⟩,
        m_data := w.m_data } := by
  unfold OSMElementCacheWriter.WriteBatch
  rw [serializeBatch_ok c a elements hb]
  simp only [OSMElementCacheWriter.appendLocked, indexLocked_eq]
  rw [recordOffsets_shift]
  rfl

theorem writtenPairs_cons {α : Type} (call : WriteCall α) (rest : List (WriteCall α)) :
    writtenPairs (call :: rest) = call.pairs ++ writtenPairs rest := by
  simp [writtenPairs]

theorem run_ok {α : Type} (c : ElementCodec α) (a : Bool) (w : OSMElementCacheWriter)
    (call : WriteCall α) (hb : ∀ p ∈ call.pairs, (c.Write p.2).length < UINT32_MAX) :
    ∃ w', call.run c a w = Except.ok w' ∧
      w'.m_fileWriter = w.m_fileWriter ++ recordsBytes c call.pairs ∧
      w'.m_currOffset = w.m_currOffset + (recordsBytes c call.pairs).length ∧
      w'.m_offsets.m_elements
        = w.m_offsets.m_elements ++ recordOffsets c w.m_currOffset call.pairs := by
  cases call with
  | single id value =>
    have h : (c.Write value).length < UINT32_MAX := hb (id, value) (by simp [WriteCall.pairs])
    refine ⟨_, Write_ok c a w id value h, ?_, ?_, ?_⟩
    · simp [WriteCall.pairs, recordsBytes]
    · simp [WriteCall.pairs, recordsBytes, recordBytes_length]
    · simp [WriteCall.pairs, recordOffsets]
  | batch elements concurrent =>
    exact ⟨_, WriteBatch_ok c a w elements concurrent hb, rfl, rfl, rfl⟩

theorem runCalls_layout {α : Type} (c : ElementCodec α) (a : Bool) :
    ∀ (calls : List (WriteCall α)) (w : OSMElementCacheWriter),
      (∀ p ∈ writtenPairs calls, (c.Write p.2).length < UINT32_MAX) →
      ∃ w', runCalls c a w calls = Except.ok w' ∧
        w'.m_fileWriter = w.m_fileWriter ++ recordsBytes c (writtenPairs calls) ∧
        w'.m_currOffset = w.m_currOffset + (recordsBytes c (writtenPairs calls)).length ∧
        w'.m_offsets.m_elements
          = w.m_offsets.m_elements ++ recordOffsets c w.m_currOffset (writtenPairs calls) := by
  intro calls
  induction calls with
  | nil =>
    intro w _
    exact ⟨w, rfl, by simp [writtenPairs, recordsBytes], by simp [writtenPairs, recordsBytes],
      by simp [writtenPairs, recordOffsets]⟩
  | cons call rest ih =>
    intro w hb
    rw [writtenPairs_cons] at hb ⊢
    obtain ⟨w1, h1, f1, o1, i1⟩ :=
      run_ok c a w call (fun p hp => hb p (List.mem_append_left _ hp))
    obtain ⟨w2, h2, f2, o2, i2⟩ := ih w1 (fun p hp => hb p (List.mem_append_right _ hp))
    refine ⟨w2, ?_, ?_, ?_, ?_⟩
    · simp only [runCalls, h1]
      exact h2
    · rw [f2, f1, recordsBytes_append, List.append_assoc]
    · rw [o2, o1, recordsBytes_append, List.length_append, Nat.add_assoc]
    · rw [i2, i1, o1, recordOffsets_append, List.append_assoc]

theorem runCalls_empty {α : Type} (c : ElementCodec α) (a : Bool) (calls : List (WriteCall α))
    (hb : ∀ p ∈ writtenPairs calls, (c.Write p.2).length < UINT32_MAX) :
    ∃ w, runCalls c a OSMElementCacheWriter.empty calls = Except.ok w ∧
      w.m_fileWriter = recordsBytes c (writtenPairs calls) ∧
      w.m_currOffset = (recordsBytes c (writtenPairs calls)).length ∧
      w.m_offsets.m_elements = recordOffsets c 0 (writtenPairs calls) := by
  obtain ⟨w, h, f, o, i⟩ := runCalls_layout c a calls OSMElementCacheWriter.empty hb
  refine ⟨w, h, ?_, ?_, ?_⟩
  · simpa [OSMElementCacheWriter.empty] using f
  · simpa [OSMElementCacheWriter.empty] using o
  · simpa [OSMElementCacheWriter.empty, IndexFileWriter.empty] using i

/-! ## Where the records lie -/

theorem recordOffsets_keys {α : Type} (c : ElementCodec α) (ps : List (Key × α)) :
    ∀ start : Nat, (recordOffsets c start ps).map Prod.fst = ps.map Prod.fst := by
  induction ps with
  | nil => intro start; rfl
  | cons p ps ih => intro start; simp [recordOffsets, ih]

theorem recordOffsets_ge {α : Type} (c : ElementCodec α) (ps : List (Key × α)) :
    ∀ (start : Nat) (e : Nat × Nat), e ∈ recordOffsets c start ps → start ≤ e.2 := by
  induction ps with
  | nil => intro start e he; simp [recordOffsets] at he
  | cons p ps ih =>
    intro start e he
    simp only [recordOffsets, List.mem_cons] at he
    rcases he with rfl | he
    · exact Nat.le_refl _
    · have := ih _ e he
      omega

theorem recordAt_middle {α : Type} (c : ElementCodec α) (P R : List Byte) (e : α) :
    recordAt c (P ++ recordBytes c e ++ R) P.length e := by
  unfold recordAt
  constructor
  · simp only [List.length_append, recordBytes_length]
    omega
  · rw [List.append_assoc, List.drop_left, ← recordBytes_length, List.take_left]

theorem recordAt_header {α : Type} (c : ElementCodec α) (file : List Byte) (off : Nat) (e : α)
    (h : recordAt c file off e) :
    (file.drop off).take 4 = encodeU32 (c.Write e).length ∧
      (file.drop (off + 4)).take (c.Write e).length = c.Write e := by
  obtain ⟨_, h2⟩ := h
  unfold recordBytes at h2
  constructor
  · have := congrArg (List.take 4) h2
    rw [List.take_take] at this
    simpa [encodeU32_length] using this
  · have := congrArg (List.drop 4) h2
    rw [List.drop_take] at this
    simpa [encodeU32_length, Nat.add_comm] using this

theorem getValueByKey_sorted_mem (r : IndexFileReader) (k : Nat)
    (h : r.m_elements.Pairwise entryLE) (hk : ∃ v, (k, v) ∈ r.m_elements) :
    ∃ v : Nat, r.GetValueByKey k = some v ∧ (k, v) ∈ r.m_elements ∧
      ∀ v' : Nat, (k, v') ∈ r.m_elements → v ≤ v' := by
  cases hB : keysAt k r.m_elements with
  | nil =>
    obtain ⟨v, hv⟩ := hk
    have : (k, v) ∈ keysAt k r.m_elements := List.mem_filter.mpr ⟨hv, by simp⟩
    rw [hB] at this
    simp at this
  | cons b B =>
    obtain ⟨h1, h2, h3⟩ := keysAt_head_le k _ h b B hB
    refine ⟨b.2, getValueByKey_sorted_some _ k b B h hB, ?_, h3⟩
    rw [← h1]
    exact h2

theorem getValueByKey_sorted_absent (r : IndexFileReader) (k : Nat)
    (h : r.m_elements.Pairwise entryLE) (hk : ∀ v, (k, v) ∉ r.m_elements) :
    r.GetValueByKey k = none := by
  apply getValueByKey_sorted_none r k h
  unfold keysAt
  rw [List.filter_eq_nil_iff]
  intro e he
  simp only [decide_eq_true_eq]
  intro hek
  exact hk e.2 (by rw [← hek]; exact he)

theorem Read_of_recordAt {α : Type} (c : ElementCodec α) (r : OSMElementCacheReader) (id : Nat)
    (pos : Nat) (e out : α) (hg : r.m_offsetsReader.GetValueByKey id = some pos)
    (hr : recordAt c r.m_fileMap pos e) (hl : (c.Write e).length < 4294967296) :
    r.Read c id out = some (true, c.Read out (c.Write e)) := by
  obtain ⟨h1, h2⟩ := recordAt_header c _ _ _ hr
  have hlen := hr.1
  unfold OSMElementCacheReader.Read
  rw [hg]
  simp only [OSMElementCacheReader.mapped]
  rw [if_pos (by omega)]
  simp only [h1, decodeU32_encodeU32 _ hl]
  rw [if_pos (by omega), h2]

theorem reopened_sorted (w : OSMElementCacheWriter) :
    (reopened w).m_offsetsReader.m_elements.Pairwise entryLE := by
  simp only [reopened, OSMElementCacheReader.load, IndexFileReader.load,
    OSMElementCacheWriter.SaveOffsets, IndexFileWriter.WriteAll]
  exact sortElements_sorted _

theorem reopened_mem (w : OSMElementCacheWriter) (e : Nat × Nat) :
    e ∈ (reopened w).m_offsetsReader.m_elements ↔ e ∈ w.m_offsets.m_elements := by
  simp only [reopened, OSMElementCacheReader.load, IndexFileReader.load,
    OSMElementCacheWriter.SaveOffsets, IndexFileWriter.WriteAll]
  exact (sortElements_perm _).mem_iff

theorem read_first_written {α : Type} (c : ElementCodec α) (a : Bool) (calls : List (WriteCall α))
    (hb : ∀ p ∈ writtenPairs calls, (c.Write p.2).length < UINT32_MAX)
    (K : Nat) (E : α) (pre post : List (Key × α))
    (hsplit : writtenPairs calls = pre ++ (K, E) :: post) (hpre : ∀ p ∈ pre, p.1 ≠ K) :
    ∃ w, runCalls c a OSMElementCacheWriter.empty calls = Except.ok w ∧
      w.m_fileWriter = recordsBytes c (writtenPairs calls) ∧
      w.m_offsets.m_elements = recordOffsets c 0 (writtenPairs calls) ∧
      (reopened w).m_offsetsReader.GetValueByKey K = some (recordsBytes c pre).length ∧
      recordAt c w.m_fileWriter (recordsBytes c pre).length E ∧
      ∀ out, (reopened w).Read c K out = some (true, c.Read out (c.Write E)) := by
  obtain ⟨w, h, f, _, i⟩ := runCalls_empty c a calls hb
  have hidx : w.m_offsets.m_elements = recordOffsets c 0 pre
      ++ (K, (recordsBytes c pre).length)
        :: recordOffsets c ((recordsBytes c pre).length + (4 + (c.Write E).length)) post := by
    rw [i, hsplit, recordOffsets_append]
    simp [recordOffsets]
  have hmemK : (K, (recordsBytes c pre).length) ∈ w.m_offsets.m_elements := by
    rw [hidx]; simp
  obtain ⟨v, hv, hvmem, hvmin⟩ := getValueByKey_sorted_mem (reopened w).m_offsetsReader K
    (reopened_sorted w) ⟨_, (reopened_mem w _).mpr hmemK⟩
  have hle := hvmin _ ((reopened_mem w _).mpr hmemK)
  have hvmem2 := (reopened_mem w _).mp hvmem
  have hveq : v = (recordsBytes c pre).length := by
    rw [hidx] at hvmem2
    rcases List.mem_append.mp hvmem2 with h1 | h1
    · have hk : K ∈ (recordOffsets c 0 pre).map Prod.fst := List.mem_map.mpr ⟨_, h1, rfl⟩
      rw [recordOffsets_keys] at hk
      obtain ⟨p, hp, hpk⟩ := List.mem_map.mp hk
      exact absurd hpk (hpre p hp)
    · rcases List.mem_cons.mp h1 with h2 | h2
      · exact (Prod.mk.inj h2).2
      · have := Nat.le_trans (recordOffsets_ge c post _ _ h2) hle
        omega
  have hrec : recordAt c w.m_fileWriter (recordsBytes c pre).length E := by
    rw [f, hsplit, recordsBytes_append]
    have := recordAt_middle c (recordsBytes c pre) (recordsBytes c post) E
    simpa [recordsBytes, List.append_assoc] using this
  have hlt : (c.Write E).length < 4294967296 := by
    have := hb (K, E) (by rw [hsplit]; simp)
    unfold UINT32_MAX at this
    simp only at this
    omega
  rw [hveq] at hv
  exact ⟨w, h, f, i, hv, hrec, fun out => Read_of_recordAt c (reopened w) K _ E out hv hrec hlt⟩

theorem Read_absent {α : Type} (c : ElementCodec α) (r : OSMElementCacheReader) (id : Nat)
    (value : α) (h : r.m_offsetsReader.GetValueByKey id = none) :
    r.Read c id value = some (false, value) := by
  unfold OSMElementCacheReader.Read
  rw [h]

theorem Read_present_ne {α : Type} (c : ElementCodec α) (r : OSMElementCacheReader) (id : Nat)
    (value v : α) (pos : Nat) (h : r.m_offsetsReader.GetValueByKey id = some pos) :
    r.Read c id value ≠ some (false, v) := by
  unfold OSMElementCacheReader.Read
  rw [h]
  simp only
  cases mapped1 : OSMElementCacheReader.mapped r.m_fileMap pos 4 with
  | none => simp
  | some header =>
    simp only
    cases OSMElementCacheReader.mapped r.m_fileMap (pos + 4) (decodeU32 header) with
    | none => simp
    | some bytes => simp

theorem Read_in_bounds {α : Type} (c : ElementCodec α) (r : OSMElementCacheReader) (id : Nat)
    (value : α) (pos : Nat) (h : r.m_offsetsReader.GetValueByKey id = some pos)
    (h1 : pos + 4 ≤ r.m_fileMap.length)
    (h2 : pos + 4 + decodeU32 ((r.m_fileMap.drop pos).take 4) ≤ r.m_fileMap.length) :
    r.Read c id value = some (true, c.Read value
      ((r.m_fileMap.drop (pos + 4)).take (decodeU32 ((r.m_fileMap.drop pos).take 4)))) := by
  unfold OSMElementCacheReader.Read
  rw [h]
  simp only [OSMElementCacheReader.mapped]
  rw [if_pos h1]
  simp only
  rw [if_pos h2]

/-! ## The key/offset index: claims -/

/-- C1: after any sequence of `Add(key, value)` calls, `WriteAll` and a reload, the call
`ForEachByKey(k, toDo)` with a visitor that always answers `Continue` invokes the visitor on
the values added under `k` and on nothing else (the visited values are a permutation of the
added ones, duplicates kept), in ascending order. -/
theorem forEachByKey_visits_added_values {σ : Type} (adds : List Element) (k : Key)
    (toDo : σ → Value → ControlFlow × σ) (s : σ)
    (hc : ∀ s v, (toDo s v).1 = ControlFlow.Continue) :
    (((reloaded adds).calls k toDo s).map Prod.fst).Perm (valuesAdded adds k) ∧
      (((reloaded adds).calls k toDo s).map Prod.fst).Pairwise (fun a b => a ≤ b) := by
  have hsorted : (reloaded adds).m_elements.Pairwise entryLE := by
    rw [reloaded_elements]; exact sortElements_sorted adds
  rw [calls_sorted _ _ _ _ hsorted, visitLog_all_continue toDo hc, reloaded_elements]
  exact ⟨keysAt_values_perm k adds, keysAt_values_sorted k _ (sortElements_sorted adds)⟩

/-- Witness of C1: the values `9, 2, 2` added under key `5` among other keys. -/
theorem forEachByKey_visits_added_values_witness :
    (∀ (s : Unit) (v : Value), ((fun (_ : Unit) (_ : Value) => (ControlFlow.Continue, ())) s v).1
        = ControlFlow.Continue) ∧
      (((reloaded [(5, 9), (3, 1), (5, 2), (7, 0), (5, 2)]).calls 5
          (fun (_ : Unit) (_ : Value) => (ControlFlow.Continue, ())) ()).map Prod.fst).Perm
        (valuesAdded [(5, 9), (3, 1), (5, 2), (7, 0), (5, 2)] 5) ∧
      (((reloaded [(5, 9), (3, 1), (5, 2), (7, 0), (5, 2)]).calls 5
          (fun (_ : Unit) (_ : Value) => (ControlFlow.Continue, ())) ()).map Prod.fst).Pairwise
        (fun a b => a ≤ b) :=
  ⟨fun _ _ => rfl,
    forEachByKey_visits_added_values [(5, 9), (3, 1), (5, 2), (7, 0), (5, 2)] 5
      (fun (_ : Unit) (_ : Value) => (ControlFlow.Continue, ())) () (fun _ _ => rfl)⟩

/-- C2: after any sequence of `Add(key, value)` calls, `WriteAll` and a reload, and for a key
`k` added at least once, `GetValueByKey(k, value)` returns `true` and sets `value` to a value
that was added under `k` and is not greater than any value added under `k`. -/
theorem getValueByKey_smallest_added (adds : List Element) (k : Key)
    (hk : ∃ v, (k, v) ∈ adds) :
    ∃ v, (reloaded adds).GetValueByKey k = some v ∧ (k, v) ∈ adds ∧
      ∀ v', (k, v') ∈ adds → v ≤ v' := by
  have hsorted : (reloaded adds).m_elements.Pairwise entryLE := by
    rw [reloaded_elements]; exact sortElements_sorted adds
  cases hB : keysAt k (reloaded adds).m_elements with
  | nil =>
    rw [reloaded_elements] at hB
    obtain ⟨v, hv⟩ := hk
    exact absurd hv ((keysAt_eq_nil_iff k adds).mp hB v)
  | cons b B =>
    obtain ⟨h1, h2, h3⟩ := keysAt_head_le k _ hsorted b B hB
    refine ⟨b.2, getValueByKey_sorted_some _ k b B hsorted hB, ?_, ?_⟩
    · rw [reloaded_elements] at h2
      have := (sortElements_perm adds).mem_iff.mp h2
      rw [← h1]
      exact this
    · intro v' hv'
      apply h3
      rw [reloaded_elements]
      exact (sortElements_perm adds).mem_iff.mpr hv'

/-- Witness of C2: key `5` was added with the values `9`, `2` and `2`. -/
theorem getValueByKey_smallest_added_witness :
    (∃ v, ((5, v) : Element) ∈ [(5, 9), (3, 1), (5, 2), (7, 0), (5, 2)]) ∧
      ∃ v, (reloaded [(5, 9), (3, 1), (5, 2), (7, 0), (5, 2)]).GetValueByKey 5 = some v ∧
        (5, v) ∈ [(5, 9), (3, 1), (5, 2), (7, 0), (5, 2)] ∧
        ∀ v', (5, v') ∈ [(5, 9), (3, 1), (5, 2), (7, 0), (5, 2)] → v ≤ v' :=
  ⟨⟨9, by decide⟩,
    getValueByKey_smallest_added [(5, 9), (3, 1), (5, 2), (7, 0), (5, 2)] 5 ⟨9, by decide⟩⟩

/-- C3: after any sequence of `Add(key, value)` calls (none at all included), `WriteAll` and
a reload, and for a key `k` that was never added, `GetValueByKey(k, value)` returns `false`
and `ForEachByKey(k, toDo)` invokes the visitor zero times and leaves its state as it was. -/
theorem absent_key_not_found {σ : Type} (adds : List Element) (k : Key)
    (toDo : σ → Value → ControlFlow × σ) (s : σ) (h : ∀ v, (k, v) ∉ adds) :
    (reloaded adds).GetValueByKey k = none ∧ (reloaded adds).calls k toDo s = [] ∧
      (reloaded adds).ForEachByKey k toDo s = s := by
  have hsorted : (reloaded adds).m_elements.Pairwise entryLE := by
    rw [reloaded_elements]; exact sortElements_sorted adds
  have hB : keysAt k (reloaded adds).m_elements = [] := by
    rw [reloaded_elements]; exact (keysAt_eq_nil_iff k adds).mpr h
  refine ⟨getValueByKey_sorted_none _ k hsorted hB, ?_, ?_⟩
  · rw [calls_sorted _ _ _ _ hsorted, hB]; rfl
  · rw [ForEachByKey_sorted _ _ _ _ hsorted, hB]; rfl

/-- Witness of C3: key `4` lies between the keys of the index and was never added. -/
theorem absent_key_not_found_witness :
    (∀ v, ((4, v) : Element) ∉ [(5, 9), (3, 1), (5, 2)]) ∧
      (reloaded [(5, 9), (3, 1), (5, 2)]).GetValueByKey 4 = none ∧
      (reloaded [(5, 9), (3, 1), (5, 2)]).calls 4
          (fun (n : Nat) (_ : Value) => (ControlFlow.Continue, n + 1)) 0 = [] ∧
      (reloaded [(5, 9), (3, 1), (5, 2)]).ForEachByKey 4
          (fun (n : Nat) (_ : Value) => (ControlFlow.Continue, n + 1)) 0 = 0 :=
  ⟨by simp,
    absent_key_not_found [(5, 9), (3, 1), (5, 2)] 4
      (fun (n : Nat) (_ : Value) => (ControlFlow.Continue, n + 1)) 0 (by simp)⟩

/-- C4: on a sorted index whose entries with key `k` hold the values `v1..vm` in this
(ascending) order, `ForEachByKey(k, toDo)` invokes the visitor on exactly `v1..vj`: the
visited values are a prefix of `v1..vm`, every answer before the last one is `Continue`, and
if the prefix is proper then the last answer is `Break`.  A visitor that answers `Break` on
its first call is invoked exactly once. -/
theorem forEachByKey_stops_at_first_break {σ : Type} (r : IndexFileReader) (k : Key)
    (toDo : σ → Value → ControlFlow × σ) (s : σ) (h : r.m_elements.Pairwise entryLE) :
    ((keysAt k r.m_elements).map Prod.snd).Pairwise (fun a b => a ≤ b) ∧
      (r.calls k toDo s).map Prod.fst
        = ((keysAt k r.m_elements).map Prod.snd).take (r.calls k toDo s).length ∧
      (∀ d ∈ ((r.calls k toDo s).map Prod.snd).dropLast, d = ControlFlow.Continue) ∧
      ((r.calls k toDo s).length < ((keysAt k r.m_elements).map Prod.snd).length →
        ((r.calls k toDo s).map Prod.snd).getLast? = some ControlFlow.Break) ∧
      (∀ v rest, (keysAt k r.m_elements).map Prod.snd = v :: rest →
        (toDo s v).1 = ControlFlow.Break → r.calls k toDo s = [(v, ControlFlow.Break)]) := by
  rw [calls_sorted r k toDo s h]
  refine ⟨keysAt_values_sorted k _ h, visitLog_values toDo _ s, visitLog_answers toDo _ s,
    visitLog_stopped toDo _ s, ?_⟩
  intro v rest hv hb
  rw [hv]
  exact visitLog_break_first toDo v rest s hb

/-- Witness of C4: key `5` has the three matches `2, 2, 9`; a visitor that always answers
`Break` is invoked once, on the first of them. -/
theorem forEachByKey_stops_at_first_break_witness :
    (reloaded [(5, 9), (3, 1), (5, 2), (7, 0), (5, 2)]).m_elements.Pairwise entryLE ∧
      (reloaded [(5, 9), (3, 1), (5, 2), (7, 0), (5, 2)]).calls 5
          (fun (n : Nat) (_ : Value) => (ControlFlow.Break, n + 1)) 0
        = [(2, ControlFlow.Break)] :=
  ⟨by rw [reloaded_elements]; exact sortElements_sorted _,
    (forEachByKey_stops_at_first_break (reloaded [(5, 9), (3, 1), (5, 2), (7, 0), (5, 2)]) 5
      (fun (n : Nat) (_ : Value) => (ControlFlow.Break, n + 1)) 0
      (by rw [reloaded_elements]; exact sortElements_sorted _)).2.2.2.2 2 [2, 9]
      (by decide) rfl⟩

/-! ## The record cache writer: claims -/

/-- Counterexample to C5 as stated: key `1` is written twice, with the elements `[0]` and
`[1]`.  The pair `(1, [1])` was written, yet `Read(1, out)` yields `[0]`, not `[1]`. -/
theorem roundtrip_rewritten_key_counterexample :
    ((1 : Key), ([1] : List Byte)) ∈ writtenPairs duplicateCalls ∧
      ∃ w, runCalls rawCodec true OSMElementCacheWriter.empty duplicateCalls = Except.ok w ∧
        (reopened w).Read rawCodec 1 [] = some (true, [0]) ∧
        (reopened w).Read rawCodec 1 [] ≠ some (true, rawCodec.Read [] (rawCodec.Write [1])) :=
  ⟨by decide,
    { m_fileWriter := [1, 0, 0, 0, 0, 1, 0, 0, 0, 1], m_currOffset := 10,
      m_offsets := ⟨[(1, 0), (1, 5)]⟩, m_data := [1] },
    rfl, by decide, by decide⟩

/-- C5 (amended): round trip.  From an empty writer, after every sequence of single and batch
`Write` calls whose payloads are shorter than `UINT32_MAX`, followed by `SaveOffsets`, and for
every pair `(K, E)` that is the first one written under `K`, `Read(K, out)` on the resulting
files returns `true` and deserializes from exactly the bytes of `E`; so `out` is `E` when the
element's `Read` inverts its `Write`. -/
theorem roundtrip_first_write {α : Type} (c : ElementCodec α) (a : Bool)
    (calls : List (WriteCall α))
    (hb : ∀ p ∈ writtenPairs calls, (c.Write p.2).length < UINT32_MAX)
    (K : Key) (E : α) (pre post : List (Key × α))
    (hsplit : writtenPairs calls = pre ++ (K, E) :: post) (hpre : ∀ p ∈ pre, p.1 ≠ K) :
    ∃ w, runCalls c a OSMElementCacheWriter.empty calls = Except.ok w ∧
      (∀ out, (reopened w).Read c K out = some (true, c.Read out (c.Write E))) ∧
      ((∀ o e, c.Read o (c.Write e) = e) → ∀ out, (reopened w).Read c K out = some (true, E)) := by
  obtain ⟨w, h, _, _, _, _, hread⟩ := read_first_written c a calls hb K E pre post hsplit hpre
  refine ⟨w, h, hread, ?_⟩
  intro hinv out
  rw [hread out, hinv]

/-- Witness of C5 (amended): the element `[9]` written under key `3` by the batch. -/
theorem roundtrip_first_write_witness :
    (∀ p ∈ writtenPairs exampleCalls, (rawCodec.Write p.2).length < UINT32_MAX) ∧
      writtenPairs exampleCalls = [(7, [1, 2])] ++ (3, [9]) :: [(5, [])] ∧
      (∀ p ∈ [((7 : Key), ([1, 2] : List Byte))], p.1 ≠ 3) ∧
      ∃ w, runCalls rawCodec true OSMElementCacheWriter.empty exampleCalls = Except.ok w ∧
        (∀ out, (reopened w).Read rawCodec 3 out
          = some (true, rawCodec.Read out (rawCodec.Write [9]))) ∧
        ((∀ o e, rawCodec.Read o (rawCodec.Write e) = e) →
          ∀ out, (reopened w).Read rawCodec 3 out = some (true, [9])) :=
  ⟨by decide, by decide, by decide,
    roundtrip_first_write rawCodec true exampleCalls (by decide) 3 [9] [(7, [1, 2])] [(5, [])]
      (by decide) (by decide)⟩

/-- C6: on a reader with a sorted offset index, `Read(id, value)` returns `false` with
`value` unmodified if and only if the index has no entry for `id`; and when `pos` is the
smallest value the index holds for `id`, and the length field at `pos` and the `L` bytes
behind it lie inside the data file (`L` being the number that the four bytes at `pos` hold),
`Read` returns `true` after giving the deserializer exactly the bytes `[pos+4, pos+4+L)`. -/
theorem read_contract {α : Type} (c : ElementCodec α) (r : OSMElementCacheReader) (id : Key)
    (value : α) (h : r.m_offsetsReader.m_elements.Pairwise entryLE) :
    (r.Read c id value = some (false, value) ↔ ∀ pos, (id, pos) ∉ r.m_offsetsReader.m_elements) ∧
      (∀ v, r.Read c id value = some (false, v) → v = value) ∧
      (∀ pos, (id, pos) ∈ r.m_offsetsReader.m_elements →
        (∀ pos', (id, pos') ∈ r.m_offsetsReader.m_elements → pos ≤ pos') →
        pos + 4 ≤ r.m_fileMap.length →
        pos + 4 + decodeU32 ((r.m_fileMap.drop pos).take 4) ≤ r.m_fileMap.length →
        r.Read c id value = some (true, c.Read value
          ((r.m_fileMap.drop (pos + 4)).take (decodeU32 ((r.m_fileMap.drop pos).take 4))))) := by
  refine ⟨⟨?_, ?_⟩, ?_, ?_⟩
  · intro hread pos hpos
    obtain ⟨v, hv, _, _⟩ := getValueByKey_sorted_mem r.m_offsetsReader id h ⟨pos, hpos⟩
    exact Read_present_ne c r id value value v hv hread
  · intro hnone
    exact Read_absent c r id value (getValueByKey_sorted_absent r.m_offsetsReader id h hnone)
  · intro v hread
    cases hg : r.m_offsetsReader.GetValueByKey id with
    | none =>
      rw [Read_absent c r id value hg] at hread
      simp only [Option.some.injEq, Prod.mk.injEq, true_and] at hread
      exact hread.symm
    | some pos => exact absurd hread (Read_present_ne c r id value v pos hg)
  · intro pos hpos hmin h1 h2
    obtain ⟨v, hv, hvmem, hvmin⟩ := getValueByKey_sorted_mem r.m_offsetsReader id h ⟨pos, hpos⟩
    have hveq : v = pos := Nat.le_antisymm (hvmin pos hpos) (hmin v hvmem)
    rw [hveq] at hv
    exact Read_in_bounds c r id value pos hv h1 h2

/-- Witness of C6: a data file of two records and an index that holds key `1` twice. -/
theorem read_contract_witness :
    (OSMElementCacheReader.load [1, 0, 0, 0, 7, 2, 0, 0, 0, 8, 9]
        [(1, 0), (1, 5)]).m_offsetsReader.m_elements.Pairwise entryLE ∧
      (OSMElementCacheReader.load [1, 0, 0, 0, 7, 2, 0, 0, 0, 8, 9] [(1, 0), (1, 5)]).Read
          rawCodec 1 [] = some (true, [7]) ∧
      (OSMElementCacheReader.load [1, 0, 0, 0, 7, 2, 0, 0, 0, 8, 9] [(1, 0), (1, 5)]).Read
          rawCodec 2 [3] = some (false, [3]) :=
  ⟨by simp [OSMElementCacheReader.load, IndexFileReader.load, entryLE],
    (read_contract rawCodec
      (OSMElementCacheReader.load [1, 0, 0, 0, 7, 2, 0, 0, 0, 8, 9] [(1, 0), (1, 5)]) 1 []
      (by simp [OSMElementCacheReader.load, IndexFileReader.load, entryLE])).2.2 0
      (by decide) (fun _ _ => Nat.zero_le _) (by decide) (by decide),
    (read_contract rawCodec
      (OSMElementCacheReader.load [1, 0, 0, 0, 7, 2, 0, 0, 0, 8, 9] [(1, 0), (1, 5)]) 2 [3]
      (by simp [OSMElementCacheReader.load, IndexFileReader.load, entryLE])).1.mpr
      (by simp [OSMElementCacheReader.load, IndexFileReader.load])⟩

theorem AddToIndex_elements (relationId : Nat) :
    ∀ (values : List Nat) (index : IndexFileWriter),
      (IntermediateDataWriter.AddToIndex index relationId values).m_elements
        = index.m_elements ++ values.map (fun v => (v, relationId)) := by
  intro values
  induction values with
  | nil => intro index; simp [IntermediateDataWriter.AddToIndex]
  | cons v values ih =>
    intro index
    simp [IntermediateDataWriter.AddToIndex, ih, IndexFileWriter.Add]

theorem AddToIndexMembers_eq {ρ : Type} (relationId : Nat) :
    ∀ (values : List (Nat × ρ)) (index : IndexFileWriter),
      IntermediateDataWriter.AddToIndexMembers index relationId values
        = IntermediateDataWriter.AddToIndex index relationId (values.map Prod.fst) := by
  intro values
  induction values with
  | nil => intro index; rfl
  | cons v values ih =>
    intro index
    simp [IntermediateDataWriter.AddToIndexMembers, IntermediateDataWriter.AddToIndex, ih]

/-- C16: the entry-entry comparison of `ElementComparator` is the strict lexicographic order
on `(key, value)`: irreflexive, transitive, and any two distinct entries are comparable.  The
entry-key and key-entry comparisons agree with it: an entry is below the key `k` exactly when
it is below every entry with key `k`, and `k` is below an entry exactly when every entry with
key `k` is below it.  In a sequence sorted by the entry-entry order, `std::equal_range` with
key `k` returns the bounds of one block that holds exactly the entries with key `k`. -/
theorem elementComparator_order (a b c : Nat × Nat) (k : Nat) (xs : List (Nat × Nat)) :
    (ElementComparator.lessEE a b = true ↔ (a.1 < b.1 ∨ (a.1 = b.1 ∧ a.2 < b.2))) ∧
      ElementComparator.lessEE a a = false ∧
      (ElementComparator.lessEE a b = true → ElementComparator.lessEE b c = true →
        ElementComparator.lessEE a c = true) ∧
      (a ≠ b → ElementComparator.lessEE a b = true ∨ ElementComparator.lessEE b a = true) ∧
      (ElementComparator.lessEK a k = true ↔ ∀ v : Nat, ElementComparator.lessEE a (k, v) = true) ∧
      (ElementComparator.lessKE k a = true ↔ ∀ v : Nat, ElementComparator.lessEE (k, v) a = true) ∧
      (xs.Pairwise (fun x y => ElementComparator.lessEE y x = false) →
        (equal_range xs k).1 ≤ (equal_range xs k).2 ∧ (equal_range xs k).2 ≤ xs.length ∧
        (xs.drop (equal_range xs k).1).take ((equal_range xs k).2 - (equal_range xs k).1)
          = xs.filter (fun e => decide (e.1 = k)) ∧
        (∀ e ∈ xs.take (equal_range xs k).1, e.1 < k) ∧
        (∀ e ∈ xs.drop (equal_range xs k).2, k < e.1)) := by
  refine ⟨lessEE_eq_true_iff a b, ?_, ?_, ?_, ?_, ?_, ?_⟩
  · rw [lessEE_eq_false_iff]
    exact Or.inr ⟨rfl, Nat.le_refl _⟩
  · intro h1 h2
    rw [lessEE_eq_true_iff] at h1 h2 ⊢
    omega
  · intro hne
    rw [lessEE_eq_true_iff, lessEE_eq_true_iff]
    have : a.1 ≠ b.1 ∨ a.2 ≠ b.2 := by
      by_contra hcon
      apply hne
      have h1 : a.1 = b.1 := by
        by_contra h; exact hcon (Or.inl h)
      have h2 : a.2 = b.2 := by
        by_contra h; exact hcon (Or.inr h)
      exact Prod.ext h1 h2
    omega
  · rw [lessEK_iff]
    constructor
    · intro h v
      rw [lessEE_eq_true_iff]
      exact Or.inl h
    · intro h
      have := h 0
      rw [lessEE_eq_true_iff] at this
      simp only [Nat.not_lt_zero, and_false, or_false] at this
      exact this
  · rw [lessKE_iff]
    constructor
    · intro h v
      rw [lessEE_eq_true_iff]
      exact Or.inl h
    · intro h
      have := h (a.2 + 1)
      rw [lessEE_eq_true_iff] at this
      simp only at this
      omega
  · intro hs
    have hsorted : xs.Pairwise entryLE := by
      refine hs.imp ?_
      intro x y hxy
      exact (lessEE_eq_false_iff y x).mp hxy
    have hsplit := sorted_split k xs hsorted
    simp only [equal_range, lower_bound_sorted k xs hsorted, upper_bound_sorted k xs hsorted,
      Nat.add_sub_cancel_left]
    have hA : ∀ e ∈ keysBelow k xs, e.1 < k := fun e he => by
      simpa using (List.mem_filter.mp he).2
    have hC : ∀ e ∈ keysAbove k xs, k < e.1 := fun e he => by
      simpa using (List.mem_filter.mp he).2
    have hB : keysAt k xs = xs.filter (fun e => decide (e.1 = k)) := rfl
    rw [← hB]
    generalize keysBelow k xs = A at hsplit hA ⊢
    generalize keysAbove k xs = C at hsplit hC ⊢
    generalize keysAt k xs = B at hsplit ⊢
    rw [hsplit]
    refine ⟨Nat.le_add_right _ _, ?_, ?_, ?_, ?_⟩
    · simp only [List.length_append]
      omega
    · rw [List.append_assoc, List.drop_left, List.take_left]
    · rw [List.append_assoc, List.take_left]
      exact hA
    · rw [← List.length_append, List.drop_left]
      exact hC

/-- Witness of C16: in a sorted sequence of four entries the block of key `5` is `[1, 3)`. -/
theorem elementComparator_order_witness :
    ([(3, 1), (5, 2), (5, 9), (7, 0)] : List (Nat × Nat)).Pairwise
        (fun x y => ElementComparator.lessEE y x = false) ∧
      (([(3, 1), (5, 2), (5, 9), (7, 0)] : List (Nat × Nat)).drop
          (equal_range [(3, 1), (5, 2), (5, 9), (7, 0)] 5).1).take
        ((equal_range [(3, 1), (5, 2), (5, 9), (7, 0)] 5).2
          - (equal_range [(3, 1), (5, 2), (5, 9), (7, 0)] 5).1)
        = ([(3, 1), (5, 2), (5, 9), (7, 0)] : List (Nat × Nat)).filter (fun e => decide (e.1 = 5)) :=
  ⟨by decide,
    ((elementComparator_order (3, 1) (5, 2) (5, 9) 5 [(3, 1), (5, 2), (5, 9), (7, 0)]).2.2.2.2.2.2
      (by decide)).2.2.1⟩

/-- C17: `AddToIndex(index, relationId, values)` appends to the index, in the order of
`values`, one entry `(v, relationId)` per element `v` and leaves the earlier entries as they
were; an id that occurs `n` times in `values` yields `n` equal entries; and the overload for
a container of `(id, role)` pairs does what the overload for plain ids does on the ids. -/
theorem addToIndex_appends {ρ : Type} (index : IndexFileWriter) (relationId : Key)
    (values : List Nat) (members : List (Nat × ρ)) (m : Nat) :
    (IntermediateDataWriter.AddToIndex index relationId values).m_elements
        = index.m_elements ++ values.map (fun v => (v, relationId)) ∧
      ((values.map (fun v => ((v, relationId) : Nat × Nat))).filter
          (fun e => decide (e = (m, relationId)))).length
        = (values.filter (fun v => decide (v = m))).length ∧
      IntermediateDataWriter.AddToIndexMembers index relationId members
        = IntermediateDataWriter.AddToIndex index relationId (members.map Prod.fst) ∧
      (IntermediateDataWriter.AddToIndexMembers index relationId members).m_elements
        = index.m_elements ++ members.map (fun v => (v.1, relationId)) := by
  refine ⟨AddToIndex_elements relationId values index, ?_,
    AddToIndexMembers_eq relationId members index, ?_⟩
  · induction values with
    | nil => rfl
    | cons v values ih =>
      by_cases hv : v = m
      · simp [List.filter_cons, hv, ih]
      · simp [List.filter_cons, hv, ih]
  · rw [AddToIndexMembers_eq, AddToIndex_elements]
    simp

theorem writtenPairs_singles {α : Type} (elements : List (Key × α)) :
    writtenPairs (elements.map (fun p => WriteCall.single p.1 p.2)) = elements := by
  induction elements with
  | nil => rfl
  | cons p ps ih =>
    rw [List.map_cons, writtenPairs_cons, ih]
    rfl

/-- C18 (amended): on every writer state, a batch `Write(elements, concurrent)` of elements
with payloads shorter than `UINT32_MAX` and the single `Write(key, element)` called on each
pair in list order both run through and leave the same data file, the same `m_currOffset`
and the same offset index; an empty batch leaves the writer as it was. -/
theorem batch_equals_singles {α : Type} (c : ElementCodec α) (a : Bool)
    (w : OSMElementCacheWriter) (elements : List (Key × α)) (concurrent : Bool)
    (hb : ∀ p ∈ elements, (c.Write p.2).length < UINT32_MAX) :
    ∃ wb ws, w.WriteBatch c a elements concurrent = Except.ok wb ∧
      runCalls c a w (elements.map (fun p => WriteCall.single p.1 p.2)) = Except.ok ws ∧
      wb.m_fileWriter = ws.m_fileWriter ∧ wb.m_currOffset = ws.m_currOffset ∧
      wb.m_offsets = ws.m_offsets ∧
      w.WriteBatch c a [] concurrent = Except.ok w := by
  have hb2 : ∀ p ∈ writtenPairs (elements.map (fun p => WriteCall.single p.1 p.2)),
      (c.Write p.2).length < UINT32_MAX := by
    rw [writtenPairs_singles]; exact hb
  obtain ⟨ws, h, f, o, i⟩ := runCalls_layout c a _ w hb2
  rw [writtenPairs_singles] at f o i
  refine ⟨_, ws, WriteBatch_ok c a w elements concurrent hb, h, f.symm, o.symm, ?_, ?_⟩
  · rw [show ws.m_offsets = ⟨ws.m_offsets.m_elements⟩ from rfl, i]
  · simp [OSMElementCacheWriter.WriteBatch, OSMElementCacheWriter.serializeBatch,
      OSMElementCacheWriter.serializeLoop, OSMElementCacheWriter.appendLocked,
      OSMElementCacheWriter.indexLocked]

/-- Witness of C18 (amended): a batch of two elements and the two single writes, behind one
record. -/
theorem batch_equals_singles_witness :
    (∀ p ∈ exampleBatch, (rawCodec.Write p.2).length < UINT32_MAX) ∧
      ∃ wb ws, exampleWriter.WriteBatch rawCodec true exampleBatch false = Except.ok wb ∧
        runCalls rawCodec true exampleWriter
            (exampleBatch.map (fun p => WriteCall.single p.1 p.2)) = Except.ok ws ∧
        wb.m_fileWriter = ws.m_fileWriter ∧ wb.m_currOffset = ws.m_currOffset ∧
        wb.m_offsets = ws.m_offsets ∧
        exampleWriter.WriteBatch rawCodec true [] false = Except.ok exampleWriter :=
  ⟨by decide, batch_equals_singles rawCodec true exampleWriter exampleBatch false (by decide)⟩

/-! ## Oversize payloads -/

theorem WriteValue_oversize {α : Type} (c : ElementCodec α) (e : α) (writer : MemWriter)
    (h : UINT32_MAX ≤ (c.Write e).length) :
    OSMElementCacheWriter.WriteValue c true e writer = none := by
  unfold OSMElementCacheWriter.WriteValue
  simp only [MemWriter.Pos, MemWriter.Write, encodeU32_length]
  have e1 : writer.m_Pos + 4 + (c.Write e).length - (writer.m_Pos + 4) = (c.Write e).length := by
    omega
  rw [e1]
  unfold checked_castU32
  by_cases hc : castU32 (c.Write e).length = (c.Write e).length
  · have hlt : ¬ (c.Write e).length < UINT32_MAX := by omega
    simp [hc, ASSERT_LESS, hlt]
  · simp [hc]

theorem serializeLoop_oversize {α : Type} (c : ElementCodec α) (p : Key × α)
    (post : List (Key × α)) (h : UINT32_MAX ≤ (c.Write p.2).length) :
    ∀ (pre : List (Key × α)) (writer : MemWriter) (acc : List (Nat × Nat)),
      OSMElementCacheWriter.serializeLoop c true (pre ++ p :: post) writer acc = none := by
  intro pre
  induction pre with
  | nil =>
    intro writer acc
    simp [OSMElementCacheWriter.serializeLoop, WriteValue_oversize c p.2 writer h]
  | cons q pre ih =>
    intro writer acc
    simp only [List.cons_append, OSMElementCacheWriter.serializeLoop]
    cases OSMElementCacheWriter.WriteValue c true q.2 writer with
    | none => rfl
    | some writer2 => exact ih writer2 _

/-- C11 (refuted): for an element whose payload does not fit the 32-bit length field, the
single `Write` does not do what the claim says in either build.  With assertions compiled in
it aborts, but only after it has added the entry `(id, m_currOffset)` to the offset index.
With assertions compiled out it does not abort: it appends a record whose length field holds
the payload length reduced modulo `2^32`, a smaller number, followed by only that many bytes
of the payload.  The batch `Write` with assertions compiled in aborts with nothing changed. -/
theorem oversize_write_behaviour {α : Type} (c : ElementCodec α) (w : OSMElementCacheWriter)
    (id : Key) (e : α) (h : 4294967296 ≤ (c.Write e).length) :
    w.Write c true id e = Except.error
        { m_fileWriter := w.m_fileWriter, m_currOffset := w.m_currOffset,
          m_offsets := ⟨w.m_offsets.m_elements ++ [(id, w.m_currOffset)]⟩,
          m_data := c.Write e } ∧
      w.Write c false id e = Except.ok
        { m_fileWriter := w.m_fileWriter ++ encodeU32 ((c.Write e).length % 4294967296)
            ++ (c.Write e).take ((c.Write e).length % 4294967296),
          m_currOffset := w.m_currOffset + (4 + (c.Write e).length % 4294967296),
          m_offsets := ⟨w.m_offsets.m_elements ++ [(id, w.m_currOffset)]⟩,
          m_data := c.Write e } ∧
      (c.Write e).length % 4294967296 < (c.Write e).length ∧
      ∀ (pre post : List (Key × α)) (concurrent : Bool),
        w.WriteBatch c true (pre ++ (id, e) :: post) concurrent = Except.error w := by
  have e1 : (MemWriter.mk [] 0).Write (c.Write e) = ⟨c.Write e, (c.Write e).length⟩ := by
    simpa using MemWriter_Write_end [] (c.Write e)
  refine ⟨?_, ?_, ?_, ?_⟩
  · unfold OSMElementCacheWriter.Write
    have hlt : ¬ (c.Write e).length < UINT32_MAX := by unfold UINT32_MAX; omega
    simp [e1, ASSERT_LESS, hlt, IndexFileWriter.Add]
  · unfold OSMElementCacheWriter.Write
    simp [e1, ASSERT_LESS, castU32, IndexFileWriter.Add]
  · omega
  · intro pre post concurrent
    unfold OSMElementCacheWriter.WriteBatch OSMElementCacheWriter.serializeBatch
    rw [serializeLoop_oversize c (id, e) post (by unfold UINT32_MAX; simp only; omega) pre]

/-- Witness of C11 (refuted): a payload of `2^32` zero bytes, written to an empty writer. -/
theorem oversize_write_behaviour_witness :
    4294967296 ≤ (rawCodec.Write (List.replicate 4294967296 (0 : Byte))).length ∧
      OSMElementCacheWriter.Write rawCodec false OSMElementCacheWriter.empty 1
          (List.replicate 4294967296 (0 : Byte))
        = Except.ok
          { m_fileWriter := OSMElementCacheWriter.empty.m_fileWriter
              ++ encodeU32 ((rawCodec.Write (List.replicate 4294967296 (0 : Byte))).length
                % 4294967296)
              ++ (rawCodec.Write (List.replicate 4294967296 (0 : Byte))).take
                ((rawCodec.Write (List.replicate 4294967296 (0 : Byte))).length % 4294967296),
            m_currOffset := OSMElementCacheWriter.empty.m_currOffset
              + (4 + (rawCodec.Write (List.replicate 4294967296 (0 : Byte))).length % 4294967296),
            m_offsets := ⟨OSMElementCacheWriter.empty.m_offsets.m_elements
              ++ [(1, OSMElementCacheWriter.empty.m_currOffset)]⟩,
            m_data := rawCodec.Write (List.replicate 4294967296 (0 : Byte)) } :=
  ⟨Nat.le_of_eq (List.length_replicate 4294967296 (0 : Byte)).symm,
    (oversize_write_behaviour rawCodec OSMElementCacheWriter.empty 1
      (List.replicate 4294967296 (0 : Byte))
      (Nat.le_of_eq (List.length_replicate 4294967296 (0 : Byte)).symm)).2.1⟩

/-! ## Batch and single writes of an oversize payload -/

theorem hugePayload_oversize : UINT32_MAX ≤ (rawCodec.Write hugePayload).length :=
  Nat.le_of_lt (Nat.lt_of_lt_of_eq (Nat.lt_succ_self 4294967295)
    (List.length_replicate 4294967296 (0 : Byte)).symm)

theorem Write_abort_of_oversize {α : Type} (c : ElementCodec α) (w : OSMElementCacheWriter)
    (id : Nat) (e : α) (h : UINT32_MAX ≤ (c.Write e).length) :
    w.Write c true id e = Except.error
      { m_fileWriter := w.m_fileWriter, m_currOffset := w.m_currOffset,
        m_offsets := ⟨w.m_offsets.m_elements ++ [(id, w.m_currOffset)]⟩,
        m_data := c.Write e } := by
  have e1 : (MemWriter.mk [] 0).Write (c.Write e) = ⟨c.Write e, (c.Write e).length⟩ := by
    simpa using MemWriter_Write_end [] (c.Write e)
  unfold OSMElementCacheWriter.Write
  have hlt : ¬ (c.Write e).length < UINT32_MAX := by omega
  simp [e1, ASSERT_LESS, hlt, IndexFileWriter.Add]

theorem WriteBatch_abort_of_oversize {α : Type} (c : ElementCodec α) (w : OSMElementCacheWriter)
    (pre : List (Key × α)) (p : Key × α) (post : List (Key × α)) (concurrent : Bool)
    (h : UINT32_MAX ≤ (c.Write p.2).length) :
    w.WriteBatch c true (pre ++ p :: post) concurrent = Except.error w := by
  unfold OSMElementCacheWriter.WriteBatch OSMElementCacheWriter.serializeBatch
  rw [serializeLoop_oversize c p post h pre]

theorem singles_abort_after_first {α : Type} (c : ElementCodec α) (w : OSMElementCacheWriter)
    (p q : Key × α) (hp : (c.Write p.2).length < UINT32_MAX)
    (hq : UINT32_MAX ≤ (c.Write q.2).length) :
    runCalls c true w ([p, q].map (fun x => WriteCall.single x.1 x.2)) = Except.error
      { m_fileWriter := w.m_fileWriter ++ recordBytes c p.2,
        m_currOffset := w.m_currOffset + (4 + (c.Write p.2).length),
        m_offsets := ⟨w.m_offsets.m_elements ++ [(p.1, w.m_currOffset)]
          ++ [(q.1, w.m_currOffset + (4 + (c.Write p.2).length))]⟩,
        m_data := c.Write q.2 } := by
  simp only [List.map, runCalls, WriteCall.run]
  rw [Write_ok c true w p.1 p.2 hp]
  simp only
  rw [Write_abort_of_oversize c _ q.1 q.2 hq]

/-- Counterexample to C18 as stated: a list whose second element has a payload of `2^32`
bytes, written to an empty writer with assertions compiled in.  The batch `Write` aborts
with the writer untouched.  The single `Write` calls in list order have, when the second one
aborts, appended the record of the first element to the data file, advanced `m_currOffset`
to `5` and added two entries to the offset index. -/
theorem batch_differs_from_singles_counterexample :
    OSMElementCacheWriter.empty.WriteBatch rawCodec true oversizeBatch false
        = Except.error OSMElementCacheWriter.empty ∧
      ∃ ws, runCalls rawCodec true OSMElementCacheWriter.empty
            (oversizeBatch.map (fun p => WriteCall.single p.1 p.2)) = Except.error ws ∧
        ws.m_fileWriter = [1, 0, 0, 0, 5] ∧ ws.m_currOffset = 5 ∧
        ws.m_offsets.m_elements = [(1, 0), (2, 5)] ∧
        ws.m_fileWriter ≠ OSMElementCacheWriter.empty.m_fileWriter :=
  ⟨WriteBatch_abort_of_oversize rawCodec OSMElementCacheWriter.empty
      [((1 : Key), ([5] : List Byte))] ((2 : Key), hugePayload) [] false hugePayload_oversize,
    _,
    singles_abort_after_first rawCodec OSMElementCacheWriter.empty
      ((1 : Key), ([5] : List Byte)) ((2 : Key), hugePayload) (by decide) hugePayload_oversize,
    rfl, rfl, rfl, by decide⟩

/-! ## The relation traversals -/

theorem visit_processor_recording {α σ : Type} (c : ElementCodec α) (dflt : α)
    (m_reader : OSMElementCacheReader) (toDo : σ → Nat → α → ControlFlow × σ) :
    ∀ (rs : List Nat) (s : σ) (log : List (Nat × α × ControlFlow)),
      (∀ id ∈ rs, m_reader.Read c id dflt ≠ none) →
      (visitUntilBreak (IntermediateDataReader.ElementProcessorBase c dflt m_reader
          (IntermediateDataReader.recordingArgs toDo)) rs (some (s, log))).map Prod.snd
        = some (log ++ visitsOf (fun id => m_reader.Read c id dflt) toDo rs s) := by
  intro rs
  induction rs with
  | nil => intro s log _; simp [visitUntilBreak, visitsOf]
  | cons r rs ih =>
    intro s log hdef
    have hr := hdef r (List.mem_cons_self _ _)
    have hrest : ∀ id ∈ rs, m_reader.Read c id dflt ≠ none :=
      fun id hid => hdef id (List.mem_cons_of_mem _ hid)
    simp only [visitUntilBreak, visitsOf, IntermediateDataReader.ElementProcessorBase]
    rcases hread : m_reader.Read c r dflt with _ | ⟨b, e⟩
    · exact absurd hread hr
    · cases b
      · simp
      · simp only [IntermediateDataReader.recordingArgs]
        rcases htd : toDo s r e with ⟨cf, s'⟩
        cases cf
        · simp
        · simp only
          rw [ih s' _ hrest]
          simp

theorem visitsOf_ids {α σ : Type} (read : Nat → Option (Bool × α))
    (toDo : σ → Nat → α → ControlFlow × σ) :
    ∀ (rs : List Nat) (s : σ),
      (visitsOf read toDo rs s).map Prod.fst = rs.take (visitsOf read toDo rs s).length := by
  intro rs
  induction rs with
  | nil => intro s; simp [visitsOf]
  | cons r rs ih =>
    intro s
    simp only [visitsOf]
    rcases hread : read r with _ | ⟨b, e⟩
    · simp
    · cases b
      · simp
      · simp only
        rcases htd : toDo s r e with ⟨cf, s'⟩
        cases cf
        · simp
        · simpa using ih s'

theorem visitsOf_elements {α σ : Type} (read : Nat → Option (Bool × α))
    (toDo : σ → Nat → α → ControlFlow × σ) :
    ∀ (rs : List Nat) (s : σ), ∀ x ∈ visitsOf read toDo rs s, read x.1 = some (true, x.2.1) := by
  intro rs
  induction rs with
  | nil => intro s x hx; simp [visitsOf] at hx
  | cons r rs ih =>
    intro s x hx
    simp only [visitsOf] at hx
    rcases hread : read r with _ | ⟨b, e⟩
    · rw [hread] at hx; simp at hx
    · rw [hread] at hx
      cases b
      · simp at hx
      · simp only at hx
        rcases htd : toDo s r e with ⟨cf, s'⟩
        rw [htd] at hx
        cases cf
        · simp only [List.mem_singleton] at hx
          rw [hx]; exact hread
        · simp only [List.mem_cons] at hx
          rcases hx with hx | hx
          · rw [hx]; exact hread
          · exact ih s' x hx

theorem visitsOf_answers {α σ : Type} (read : Nat → Option (Bool × α))
    (toDo : σ → Nat → α → ControlFlow × σ) :
    ∀ (rs : List Nat) (s : σ),
      ∀ d ∈ ((visitsOf read toDo rs s).map (fun x => x.2.2)).dropLast, d = ControlFlow.Continue := by
  intro rs
  induction rs with
  | nil => intro s d hd; simp [visitsOf] at hd
  | cons r rs ih =>
    intro s d hd
    simp only [visitsOf] at hd
    rcases hread : read r with _ | ⟨b, e⟩
    · rw [hread] at hd; simp at hd
    · rw [hread] at hd
      cases b
      · simp at hd
      · simp only at hd
        rcases htd : toDo s r e with ⟨cf, s'⟩
        rw [htd] at hd
        cases cf
        · simp at hd
        · simp only [List.map_cons] at hd
          by_cases hnil : (visitsOf read toDo rs s').map (fun x => x.2.2) = []
          · rw [hnil] at hd
            simp at hd
          · rw [List.dropLast_cons_of_ne_nil hnil] at hd
            rcases List.mem_cons.mp hd with rfl | hd
            · rfl
            · exact ih s' d hd

theorem visitsOf_stopped {α σ : Type} (read : Nat → Option (Bool × α))
    (toDo : σ → Nat → α → ControlFlow × σ) :
    ∀ (rs : List Nat) (s : σ), (∀ id ∈ rs, read id ≠ none) →
      (visitsOf read toDo rs s).length < rs.length →
      ((visitsOf read toDo rs s).map (fun x => x.2.2)).getLast? = some ControlFlow.Break ∨
        ∃ id, rs[(visitsOf read toDo rs s).length]? = some id ∧ ∃ v, read id = some (false, v) := by
  intro rs
  induction rs with
  | nil => intro s _ h; simp at h
  | cons r rs ih =>
    intro s hdef hlt
    have hr := hdef r (List.mem_cons_self _ _)
    have hrest : ∀ id ∈ rs, read id ≠ none := fun id hid => hdef id (List.mem_cons_of_mem _ hid)
    simp only [visitsOf] at hlt ⊢
    rcases hread : read r with _ | ⟨b, e⟩
    · exact absurd hread hr
    · rw [hread] at hlt
      cases b
      · right
        exact ⟨r, by simp, e, hread⟩
      · simp only at hlt ⊢
        rcases htd : toDo s r e with ⟨cf, s'⟩
        rw [htd] at hlt
        cases cf
        · left; simp
        · simp only [List.length_cons, Nat.add_lt_add_iff_right] at hlt
          rcases ih s' hrest hlt with h1 | h1
          · left
            simp only [List.map_cons]
            cases hl : (visitsOf read toDo rs s').map (fun x => x.2.2) with
            | nil => rw [hl] at h1; simp at h1
            | cons x xs =>
              rw [hl] at h1
              rw [List.getLast?_cons_cons]
              exact h1
          · right
            simpa using h1

theorem reads_vs_visits {α σ : Type} (c : ElementCodec α) (dflt : α)
    (m_reader : OSMElementCacheReader) (toDo : σ → Nat → α → ControlFlow × σ) :
    ∀ (rs : List Nat) (s : σ), (∀ id ∈ rs, m_reader.Read c id dflt ≠ none) →
      (visitsOf (fun id => m_reader.Read c id dflt) toDo rs s).length
          ≤ (visitLog (IntermediateDataReader.ElementProcessorBase c dflt m_reader toDo) rs
              (some s)).length ∧
        (visitLog (IntermediateDataReader.ElementProcessorBase c dflt m_reader toDo) rs
              (some s)).length
          ≤ (visitsOf (fun id => m_reader.Read c id dflt) toDo rs s).length + 1 := by
  intro rs
  induction rs with
  | nil => intro s _; simp [visitsOf, visitLog]
  | cons r rs ih =>
    intro s hdef
    have hr := hdef r (List.mem_cons_self _ _)
    have hrest : ∀ id ∈ rs, m_reader.Read c id dflt ≠ none :=
      fun id hid => hdef id (List.mem_cons_of_mem _ hid)
    simp only [visitsOf, visitLog, IntermediateDataReader.ElementProcessorBase]
    rcases hread : m_reader.Read c r dflt with _ | ⟨b, e⟩
    · exact absurd hread hr
    · cases b
      · simp
      · simp only
        rcases htd : toDo s r e with ⟨cf, s'⟩
        cases cf
        · simp
        · simp only [List.length_cons]
          have := ih s' hrest
          omega

/-- C12: on a reader whose way→relations index is sorted, let `r1 ≤ ... ≤ rm` be the relation
ids that the index holds for the way `w`, and let every read of them stay inside the
relations file.  `ForEachRelationByWay(w, toDo)` returns normally; it invokes the visitor on
a prefix `r1..rj` of these ids, in this order, each time with the element that `Read` yields
for that id; every answer before the last is `Continue`; if the prefix is proper, then the
last answer was `Break` or the read of the next relation failed.  The relations read are a
prefix of `r1..rm` as well, at most one longer than the prefix visited. -/
theorem forEachRelationByWay_traversal {α σ : Type} (c : ElementCodec α) (dflt : α)
    (r : IntermediateDataReader) (w : Key) (toDo : σ → Key → α → ControlFlow × σ) (s : σ)
    (h : r.m_wayToRelations.m_elements.Pairwise entryLE)
    (hdef : ∀ id ∈ matchesOf r.m_wayToRelations w, r.m_relations.Read c id dflt ≠ none) :
    (matchesOf r.m_wayToRelations w).Pairwise (fun x y => x ≤ y) ∧
      ∃ L, IntermediateDataReader.relationCalls c dflt r w toDo s = some L ∧
        L.map Prod.fst = (matchesOf r.m_wayToRelations w).take L.length ∧
        (∀ x ∈ L, r.m_relations.Read c x.1 dflt = some (true, x.2.1)) ∧
        (∀ d ∈ (L.map (fun x => x.2.2)).dropLast, d = ControlFlow.Continue) ∧
        (L.length < (matchesOf r.m_wayToRelations w).length →
          (L.map (fun x => x.2.2)).getLast? = some ControlFlow.Break ∨
            ∃ id, (matchesOf r.m_wayToRelations w)[L.length]? = some id ∧
              ∃ v, r.m_relations.Read c id dflt = some (false, v)) ∧
        (IntermediateDataReader.relationReads c dflt r w toDo s).map Prod.fst
          = (matchesOf r.m_wayToRelations w).take
              (IntermediateDataReader.relationReads c dflt r w toDo s).length ∧
        L.length ≤ (IntermediateDataReader.relationReads c dflt r w toDo s).length ∧
        (IntermediateDataReader.relationReads c dflt r w toDo s).length ≤ L.length + 1 := by
  refine ⟨keysAt_values_sorted w _ h, visitsOf (fun id => r.m_relations.Read c id dflt) toDo
    (matchesOf r.m_wayToRelations w) s, ?_, visitsOf_ids _ _ _ _, visitsOf_elements _ _ _ _,
    visitsOf_answers _ _ _ _, visitsOf_stopped _ _ _ _ hdef, ?_, ?_⟩
  · unfold IntermediateDataReader.relationCalls IntermediateDataReader.ForEachRelationByWay
      IntermediateDataReader.RelationProcessor
    rw [ForEachByKey_sorted _ _ _ _ h]
    have := visit_processor_recording c dflt r.m_relations toDo
      (matchesOf r.m_wayToRelations w) s [] hdef
    simpa [matchesOf] using this
  · unfold IntermediateDataReader.relationReads IntermediateDataReader.RelationProcessor
    rw [calls_sorted _ _ _ _ h]
    exact visitLog_values _ _ _
  · unfold IntermediateDataReader.relationReads IntermediateDataReader.RelationProcessor
    rw [calls_sorted _ _ _ _ h]
    exact reads_vs_visits c dflt r.m_relations toDo _ s hdef

/-- Witness of C12: way `7` matches the relations `10`, `20` and `30`, the last of which
the relations cache does not hold. -/
theorem forEachRelationByWay_traversal_witness :
    exampleReader.m_wayToRelations.m_elements.Pairwise entryLE ∧
      (∀ id ∈ matchesOf exampleReader.m_wayToRelations 7,
        exampleReader.m_relations.Read rawCodec id [] ≠ none) ∧
      ∃ L, IntermediateDataReader.relationCalls rawCodec [] exampleReader 7
            (fun (n : Nat) (_ : Key) (_ : List Byte) => (ControlFlow.Continue, n + 1)) 0 = some L ∧
        L.map Prod.fst = (matchesOf exampleReader.m_wayToRelations 7).take L.length ∧
        (∀ x ∈ L, exampleReader.m_relations.Read rawCodec x.1 [] = some (true, x.2.1)) ∧
        (∀ d ∈ (L.map (fun x => x.2.2)).dropLast, d = ControlFlow.Continue) ∧
        (L.length < (matchesOf exampleReader.m_wayToRelations 7).length →
          (L.map (fun x => x.2.2)).getLast? = some ControlFlow.Break ∨
            ∃ id, (matchesOf exampleReader.m_wayToRelations 7)[L.length]? = some id ∧
              ∃ v, exampleReader.m_relations.Read rawCodec id [] = some (false, v)) ∧
        (IntermediateDataReader.relationReads rawCodec [] exampleReader 7
            (fun (n : Nat) (_ : Key) (_ : List Byte) => (ControlFlow.Continue, n + 1)) 0).map
            Prod.fst
          = (matchesOf exampleReader.m_wayToRelations 7).take
              (IntermediateDataReader.relationReads rawCodec [] exampleReader 7
                (fun (n : Nat) (_ : Key) (_ : List Byte) => (ControlFlow.Continue, n + 1))
                0).length ∧
        L.length ≤ (IntermediateDataReader.relationReads rawCodec [] exampleReader 7
            (fun (n : Nat) (_ : Key) (_ : List Byte) => (ControlFlow.Continue, n + 1)) 0).length ∧
        (IntermediateDataReader.relationReads rawCodec [] exampleReader 7
            (fun (n : Nat) (_ : Key) (_ : List Byte) => (ControlFlow.Continue, n + 1)) 0).length
          ≤ L.length + 1 :=
  ⟨by decide, by decide,
    (forEachRelationByWay_traversal rawCodec [] exampleReader 7
      (fun (n : Nat) (_ : Key) (_ : List Byte) => (ControlFlow.Continue, n + 1)) 0
      (by decide) (by decide)).2⟩

theorem forEachLoop_log_independent {α σ : Type} (c : ElementCodec α) (dflt : α)
    (m_reader : OSMElementCacheReader) (toDo : σ → Nat → α → ControlFlow × σ)
    (hdep : ∀ s s' id e, (toDo s id e).1 = (toDo s' id e).1) (xs : List (Nat × Nat)) :
    ∀ (n first : Nat) (st1 st2 : Option (σ × List (Nat × α × ControlFlow))),
      st1.map Prod.snd = st2.map Prod.snd →
      (IndexFileReader.forEachLoop xs (IntermediateDataReader.ElementProcessorBase c dflt m_reader
          (IntermediateDataReader.recordingArgs toDo)) n first st1).map Prod.snd
        = (IndexFileReader.forEachLoop xs (IntermediateDataReader.ElementProcessorBase c dflt
            m_reader (IntermediateDataReader.recordingArgs toDo)) n first st2).map Prod.snd := by
  intro n
  induction n with
  | zero => intro first st1 st2 h; exact h
  | succ n ih =>
    intro first st1 st2 h
    simp only [IndexFileReader.forEachLoop]
    rcases st1 with _ | ⟨s1, log1⟩
    · rcases st2 with _ | ⟨s2, log2⟩
      · rfl
      · simp at h
    · rcases st2 with _ | ⟨s2, log2⟩
      · simp at h
      · simp only [Option.map_some', Option.some.injEq] at h
        subst h
        simp only [IntermediateDataReader.ElementProcessorBase]
        rcases hread : m_reader.Read c (xs.getD first (0, 0)).2 dflt with _ | ⟨b, e⟩
        · rfl
        · cases b
          · rfl
          · simp only [IntermediateDataReader.recordingArgs]
            have hd := hdep s1 s2 (xs.getD first (0, 0)).2 e
            rcases h1 : toDo s1 (xs.getD first (0, 0)).2 e with ⟨cf1, s1'⟩
            rcases h2 : toDo s2 (xs.getD first (0, 0)).2 e with ⟨cf2, s2'⟩
            rw [h1, h2] at hd
            simp only at hd
            subst hd
            cases cf1
            · rfl
            · exact ih _ _ _ rfl

/-- C15: for every reader, every id and every visitor whose answer depends only on its
arguments (not on the state it has accumulated), any two calls of `ForEachRelationByWay`
with this id, whatever state the visitor is in when they start, produce the same sequence
of visitor invocations: the same relation ids with the same elements and answers, in the
same order, up to the same stopping point.  The member is `const`: both calls act on the
same reader value, which no call changes. -/
theorem forEachRelationByWay_deterministic {α σ : Type} (c : ElementCodec α) (dflt : α)
    (r : IntermediateDataReader) (id : Key) (toDo : σ → Key → α → ControlFlow × σ)
    (hdep : ∀ s s' id e, (toDo s id e).1 = (toDo s' id e).1) (s s' : σ) :
    IntermediateDataReader.relationCalls c dflt r id toDo s
        = IntermediateDataReader.relationCalls c dflt r id toDo s' ∧
      ∀ s1, r.ForEachRelationByWay c dflt id toDo s = some s1 →
        IntermediateDataReader.relationCalls c dflt r id toDo s1
          = IntermediateDataReader.relationCalls c dflt r id toDo s := by
  have key : ∀ a b : σ, IntermediateDataReader.relationCalls c dflt r id toDo a
      = IntermediateDataReader.relationCalls c dflt r id toDo b := by
    intro a b
    unfold IntermediateDataReader.relationCalls IntermediateDataReader.ForEachRelationByWay
      IntermediateDataReader.RelationProcessor IndexFileReader.ForEachByKey
    exact forEachLoop_log_independent c dflt r.m_relations toDo hdep _ _ _ _ _ rfl
  exact ⟨key s s', fun s1 _ => key s1 s⟩

/-- Witness of C15: a visitor that counts its calls and stops at relation `20`. -/
theorem forEachRelationByWay_deterministic_witness :
    (∀ (s s' : Nat) (id : Key) (e : List Byte),
        ((fun (n : Nat) (id : Key) (_ : List Byte) =>
            (if id = 20 then ControlFlow.Break else ControlFlow.Continue, n + 1)) s id e).1
          = ((fun (n : Nat) (id : Key) (_ : List Byte) =>
            (if id = 20 then ControlFlow.Break else ControlFlow.Continue, n + 1)) s' id e).1) ∧
      IntermediateDataReader.relationCalls rawCodec [] exampleReader 7
          (fun (n : Nat) (id : Key) (_ : List Byte) =>
            (if id = 20 then ControlFlow.Break else ControlFlow.Continue, n + 1)) 0
        = IntermediateDataReader.relationCalls rawCodec [] exampleReader 7
          (fun (n : Nat) (id : Key) (_ : List Byte) =>
            (if id = 20 then ControlFlow.Break else ControlFlow.Continue, n + 1)) 5 :=
  ⟨fun _ _ _ _ => rfl,
    (forEachRelationByWay_deterministic rawCodec [] exampleReader 7
      (fun (n : Nat) (id : Key) (_ : List Byte) =>
        (if id = 20 then ControlFlow.Break else ControlFlow.Continue, n + 1))
      (fun _ _ _ _ => rfl) 0 5).1⟩

theorem visitsOf_decisions {α σ : Type} (read : Nat → Option (Bool × α))
    (toDo : σ → Nat → α → ControlFlow × σ) (d : Nat → ControlFlow)
    (hE : ∀ s id e, (toDo s id e).1 = d id) :
    ∀ (rs : List Nat) (s : σ), (∀ id ∈ rs, ∃ e, read id = some (true, e)) →
      (visitsOf read toDo rs s).map (fun x => (x.1, x.2.2))
        = visitLog (fun (_ : Unit) id => (d id, ())) rs () := by
  intro rs
  induction rs with
  | nil => intro s _; rfl
  | cons r rs ih =>
    intro s hread
    obtain ⟨e, he⟩ := hread r (List.mem_cons_self _ _)
    have hrest : ∀ id ∈ rs, ∃ e, read id = some (true, e) :=
      fun id hid => hread id (List.mem_cons_of_mem _ hid)
    simp only [visitsOf, visitLog, he]
    have hd := hE s r e
    rcases htd : toDo s r e with ⟨cf, s'⟩
    rw [htd] at hd
    simp only at hd
    rw [← hd]
    cases cf
    · rfl
    · simp only [List.map_cons]
      rw [ih s' hrest]

theorem visit_cached_recording {τ : Type} (rd : OSMElementCacheReader)
    (toDo : τ → Nat → OSMElementCacheReader → ControlFlow × τ) (d : Nat → ControlFlow)
    (hC : ∀ t id x, (toDo t id x).1 = d id) :
    ∀ (rs : List Nat) (t : τ) (log : List (Nat × OSMElementCacheReader × ControlFlow)),
      (visitUntilBreak (IntermediateDataReader.CachedRelationProcessor rd
          (IntermediateDataReader.recordingArgs toDo)) rs (t, log)).2
        = log ++ (visitLog (fun (_ : Unit) id => (d id, ())) rs ()).map
            (fun x => (x.1, rd, x.2)) := by
  intro rs
  induction rs with
  | nil => intro t log; simp [visitUntilBreak, visitLog]
  | cons r rs ih =>
    intro t log
    simp only [visitUntilBreak, visitLog, IntermediateDataReader.CachedRelationProcessor,
      IntermediateDataReader.recordingArgs]
    have hd := hC t r rd
    rcases htd : toDo t r rd with ⟨cf, t'⟩
    rw [htd] at hd
    simp only at hd
    rw [← hd]
    cases cf
    · simp
    · simp only
      rw [ih]
      simp

/-- Counterexample to C13 as stated: in `exampleReader` the way `7` matches the relations
`10`, `20` and `30`, and the relations cache does not hold relation `30`.  With visitors
that always answer `Continue`, the eager traversal invokes its visitor on `10` and `20`,
the cached traversal on `10`, `20` and `30`. -/
theorem cached_traversal_counterexample :
    (IntermediateDataReader.relationCalls rawCodec [] exampleReader 7
        (fun (_ : Unit) (_ : Key) (_ : List Byte) => (ControlFlow.Continue, ())) ()).map
          (fun L => L.map Prod.fst) = some [10, 20] ∧
      (IntermediateDataReader.relationCallsCached exampleReader 7
        (fun (_ : Unit) (_ : Key) (_ : OSMElementCacheReader) => (ControlFlow.Continue, ()))
          ()).map Prod.fst = [10, 20, 30] :=
  ⟨by decide, by decide⟩

/-- C13 (amended): on a reader whose way→relations index is sorted and whose relations
cache yields every relation that the index holds for the way `w` (`Read` returns `true`), and for two visitors that
give the same answer `d id` for every relation id, `ForEachRelationByWayCached(w, ...)`
invokes its visitor on exactly the relation ids on which `ForEachRelationByWay(w, ...)`
invokes its own, in the same order and with the same answers, and passes the relations
cache reader each time.  `ForEachRelationByNodeCached` is the same traversal over the
node→relations index. -/
theorem cached_traversal_same_ids {α σ τ : Type} (c : ElementCodec α) (dflt : α)
    (r : IntermediateDataReader) (w : Key) (toDoE : σ → Key → α → ControlFlow × σ)
    (toDoC : τ → Key → OSMElementCacheReader → ControlFlow × τ) (d : Key → ControlFlow)
    (s : σ) (t : τ)
    (h : r.m_wayToRelations.m_elements.Pairwise entryLE)
    (hread : ∀ id ∈ matchesOf r.m_wayToRelations w,
      (r.m_relations.Read c id dflt).map Prod.fst = some true)
    (hE : ∀ s id e, (toDoE s id e).1 = d id) (hC : ∀ t id x, (toDoC t id x).1 = d id) :
    ∃ L, IntermediateDataReader.relationCalls c dflt r w toDoE s = some L ∧
      (IntermediateDataReader.relationCallsCached r w toDoC t).map (fun x => (x.1, x.2.2))
        = L.map (fun x => (x.1, x.2.2)) ∧
      (∀ x ∈ IntermediateDataReader.relationCallsCached r w toDoC t, x.2.1 = r.m_relations) ∧
      ∀ n, IntermediateDataReader.relationCallsByNodeCached r n toDoC t
        = IntermediateDataReader.relationCallsCached
            { r with m_wayToRelations := r.m_nodeToRelations } n toDoC t := by
  have hread2 : ∀ id ∈ matchesOf r.m_wayToRelations w,
      ∃ e, r.m_relations.Read c id dflt = some (true, e) := by
    intro id hid
    have := hread id hid
    rcases hr : r.m_relations.Read c id dflt with _ | ⟨b, e⟩
    · rw [hr] at this; simp at this
    · rw [hr] at this
      simp only [Option.map_some', Option.some.injEq] at this
      exact ⟨e, by rw [this]⟩
  have hdef : ∀ id ∈ matchesOf r.m_wayToRelations w, r.m_relations.Read c id dflt ≠ none := by
    intro id hid
    obtain ⟨e, he⟩ := hread2 id hid
    rw [he]
    simp
  have hproj : ∀ l : List (Nat × ControlFlow),
      (l.map (fun x => (x.1, r.m_relations, x.2))).map (fun x => (x.1, x.2.2)) = l := by
    intro l
    induction l with
    | nil => rfl
    | cons x l ih => simp [ih]
  have hcached : IntermediateDataReader.relationCallsCached r w toDoC t
      = (visitLog (fun (_ : Unit) id => (d id, ())) (matchesOf r.m_wayToRelations w) ()).map
          (fun x => (x.1, r.m_relations, x.2)) := by
    unfold IntermediateDataReader.relationCallsCached
      IntermediateDataReader.ForEachRelationByWayCached
    rw [ForEachByKey_sorted _ _ _ _ h]
    have := visit_cached_recording r.m_relations toDoC d hC (matchesOf r.m_wayToRelations w) t []
    simpa [matchesOf] using this
  refine ⟨visitsOf (fun id => r.m_relations.Read c id dflt) toDoE
    (matchesOf r.m_wayToRelations w) s, ?_, ?_, ?_, fun _ => rfl⟩
  · unfold IntermediateDataReader.relationCalls IntermediateDataReader.ForEachRelationByWay
      IntermediateDataReader.RelationProcessor
    rw [ForEachByKey_sorted _ _ _ _ h]
    have := visit_processor_recording c dflt r.m_relations toDoE
      (matchesOf r.m_wayToRelations w) s [] hdef
    simpa [matchesOf] using this
  · rw [hcached, visitsOf_decisions _ toDoE d hE _ s hread2, hproj]
  · intro x hx
    rw [hcached] at hx
    obtain ⟨y, _, rfl⟩ := List.mem_map.mp hx
    rfl

/-- Witness of C13 (amended): way `8` of `exampleReader` matches relation `20`, which the
relations cache holds. -/
theorem cached_traversal_same_ids_witness :
    exampleReader.m_wayToRelations.m_elements.Pairwise entryLE ∧
      (∀ id ∈ matchesOf exampleReader.m_wayToRelations 8,
        (exampleReader.m_relations.Read rawCodec id []).map Prod.fst = some true) ∧
      ∃ L, IntermediateDataReader.relationCalls rawCodec [] exampleReader 8
            (fun (n : Nat) (_ : Key) (_ : List Byte) => (ControlFlow.Continue, n + 1)) 0 = some L ∧
        (IntermediateDataReader.relationCallsCached exampleReader 8
            (fun (_ : Unit) (_ : Key) (_ : OSMElementCacheReader) => (ControlFlow.Continue, ()))
            ()).map (fun x => (x.1, x.2.2)) = L.map (fun x => (x.1, x.2.2)) ∧
        (∀ x ∈ IntermediateDataReader.relationCallsCached exampleReader 8
            (fun (_ : Unit) (_ : Key) (_ : OSMElementCacheReader) => (ControlFlow.Continue, ()))
            (), x.2.1 = exampleReader.m_relations) ∧
        ∀ n, IntermediateDataReader.relationCallsByNodeCached exampleReader n
            (fun (_ : Unit) (_ : Key) (_ : OSMElementCacheReader) => (ControlFlow.Continue, ())) ()
          = IntermediateDataReader.relationCallsCached
              { exampleReader with m_wayToRelations := exampleReader.m_nodeToRelations } n
              (fun (_ : Unit) (_ : Key) (_ : OSMElementCacheReader) => (ControlFlow.Continue, ()))
              () :=
  ⟨by decide, by decide,
    cached_traversal_same_ids rawCodec [] exampleReader 8
      (fun (n : Nat) (_ : Key) (_ : List Byte) => (ControlFlow.Continue, n + 1))
      (fun (_ : Unit) (_ : Key) (_ : OSMElementCacheReader) => (ControlFlow.Continue, ()))
      (fun _ => ControlFlow.Continue) 0 () (by decide) (by decide)
      (fun _ _ _ => rfl) (fun _ _ _ => rfl)⟩

/-! ## Relations from the writer to the reader -/

theorem AddToIndexMembers_elements {ρ : Type} (relationId : Nat) (values : List (Nat × ρ))
    (index : IndexFileWriter) :
    (IntermediateDataWriter.AddToIndexMembers index relationId values).m_elements
      = index.m_elements ++ values.map (fun v => (v.1, relationId)) := by
  rw [AddToIndexMembers_eq, AddToIndex_elements]
  simp

theorem addAllToIndex_elements {α ρ : Type} (select : α → List (Nat × ρ)) :
    ∀ (relations : List (Key × α)) (index : IndexFileWriter),
      (IntermediateDataWriter.addAllToIndex select index relations).m_elements
        = index.m_elements ++ memberEntries select relations := by
  intro relations
  induction relations with
  | nil => intro index; simp [IntermediateDataWriter.addAllToIndex, memberEntries]
  | cons p ps ih =>
    intro index
    simp only [IntermediateDataWriter.addAllToIndex]
    rw [ih, AddToIndexMembers_elements]
    simp [memberEntries]

theorem memberEntries_append {α ρ : Type} (select : α → List (Nat × ρ))
    (xs ys : List (Key × α)) :
    memberEntries select (xs ++ ys) = memberEntries select xs ++ memberEntries select ys := by
  simp [memberEntries]

theorem relationPairs_cons {α : Type} (call : RelationCall α) (rest : List (RelationCall α)) :
    relationPairs (call :: rest) = call.pairs ++ relationPairs rest := by
  simp [relationPairs]

theorem relationCall_run_ok {α ρ : Type} (c : ElementCodec α) (m : RelationMembers α ρ)
    (a : Bool) (w : IntermediateDataWriter) (call : RelationCall α)
    (hb : ∀ p ∈ call.pairs, (c.Write p.2).length < UINT32_MAX) :
    ∃ w', call.run c m a w = Except.ok w' ∧
      w'.m_relations.m_fileWriter = w.m_relations.m_fileWriter ++ recordsBytes c call.pairs ∧
      w'.m_relations.m_currOffset
        = w.m_relations.m_currOffset + (recordsBytes c call.pairs).length ∧
      w'.m_relations.m_offsets.m_elements = w.m_relations.m_offsets.m_elements
        ++ recordOffsets c w.m_relations.m_currOffset call.pairs ∧
      w'.m_wayToRelations.m_elements
        = w.m_wayToRelations.m_elements ++ memberEntries m.ways call.pairs ∧
      w'.m_nodeToRelations.m_elements
        = w.m_nodeToRelations.m_elements ++ memberEntries m.nodes call.pairs := by
  cases call with
  | single id e =>
    have h : (c.Write e).length < UINT32_MAX := hb (id, e) (by simp [RelationCall.pairs])
    have hrun : (RelationCall.single id e).run c m a w = Except.ok
        { w with
          m_relations :=
            { m_fileWriter := w.m_relations.m_fileWriter ++ recordBytes c e,
              m_currOffset := w.m_relations.m_currOffset + (4 + (c.Write e).length),
              m_offsets := ⟨w.m_relations.m_offsets.m_elements ++ [(id, w.m_relations.m_currOffset)]⟩,
              m_data := c.Write e }
          m_nodeToRelations :=
            IntermediateDataWriter.AddToIndexMembers w.m_nodeToRelations id (m.nodes e)
          m_wayToRelations :=
            IntermediateDataWriter.AddToIndexMembers w.m_wayToRelations id (m.ways e) } := by
      simp only [RelationCall.run, IntermediateDataWriter.AddRelation, Write_ok c a _ id e h]
    refine ⟨_, hrun, ?_, ?_, ?_, ?_, ?_⟩
    · simp [RelationCall.pairs, recordsBytes]
    · simp [RelationCall.pairs, recordsBytes, recordBytes_length]
    · simp [RelationCall.pairs, recordOffsets]
    · simp [RelationCall.pairs, memberEntries, AddToIndexMembers_elements]
    · simp [RelationCall.pairs, memberEntries, AddToIndexMembers_elements]
  | batch relations concurrent =>
    have hrun : (RelationCall.batch relations concurrent).run c m a w = Except.ok
        { w with
          m_relations :=
            { m_fileWriter := w.m_relations.m_fileWriter ++ recordsBytes c relations,
              m_currOffset := w.m_relations.m_currOffset + (recordsBytes c relations).length,
              m_offsets := ⟨w.m_relations.m_offsets.m_elements
                ++ recordOffsets c w.m_relations.m_currOffset relations⟩,
              m_data := w.m_relations.m_data }
          m_nodeToRelations :=
            IntermediateDataWriter.addAllToIndex m.nodes w.m_nodeToRelations relations
          m_wayToRelations :=
            IntermediateDataWriter.addAllToIndex m.ways w.m_wayToRelations relations } := by
      simp only [RelationCall.run, IntermediateDataWriter.AddRelations,
        WriteBatch_ok c a _ relations concurrent hb]
    refine ⟨_, hrun, rfl, rfl, rfl, ?_, ?_⟩
    · simp [RelationCall.pairs, addAllToIndex_elements]
    · simp [RelationCall.pairs, addAllToIndex_elements]

theorem runRelationCalls_layout {α ρ : Type} (c : ElementCodec α) (m : RelationMembers α ρ)
    (a : Bool) :
    ∀ (calls : List (RelationCall α)) (w : IntermediateDataWriter),
      (∀ p ∈ relationPairs calls, (c.Write p.2).length < UINT32_MAX) →
      ∃ w', runRelationCalls c m a w calls = Except.ok w' ∧
        w'.m_relations.m_fileWriter
          = w.m_relations.m_fileWriter ++ recordsBytes c (relationPairs calls) ∧
        w'.m_relations.m_currOffset
          = w.m_relations.m_currOffset + (recordsBytes c (relationPairs calls)).length ∧
        w'.m_relations.m_offsets.m_elements = w.m_relations.m_offsets.m_elements
          ++ recordOffsets c w.m_relations.m_currOffset (relationPairs calls) ∧
        w'.m_wayToRelations.m_elements
          = w.m_wayToRelations.m_elements ++ memberEntries m.ways (relationPairs calls) ∧
        w'.m_nodeToRelations.m_elements
          = w.m_nodeToRelations.m_elements ++ memberEntries m.nodes (relationPairs calls) := by
  intro calls
  induction calls with
  | nil =>
    intro w _
    exact ⟨w, rfl, by simp [relationPairs, recordsBytes], by simp [relationPairs, recordsBytes],
      by simp [relationPairs, recordOffsets], by simp [relationPairs, memberEntries],
      by simp [relationPairs, memberEntries]⟩
  | cons call rest ih =>
    intro w hb
    rw [relationPairs_cons] at hb ⊢
    obtain ⟨w1, h1, f1, o1, i1, y1, n1⟩ :=
      relationCall_run_ok c m a w call (fun p hp => hb p (List.mem_append_left _ hp))
    obtain ⟨w2, h2, f2, o2, i2, y2, n2⟩ :=
      ih w1 (fun p hp => hb p (List.mem_append_right _ hp))
    refine ⟨w2, ?_, ?_, ?_, ?_, ?_, ?_⟩
    · simp only [runRelationCalls, h1]
      exact h2
    · rw [f2, f1, recordsBytes_append, List.append_assoc]
    · rw [o2, o1, recordsBytes_append, List.length_append, Nat.add_assoc]
    · rw [i2, i1, o1, recordOffsets_append, List.append_assoc]
    · rw [y2, y1, memberEntries_append, List.append_assoc]
    · rw [n2, n1, memberEntries_append, List.append_assoc]

theorem read_first_of_layout {α : Type} (c : ElementCodec α) (w : OSMElementCacheWriter)
    (pairs : List (Key × α)) (hb : ∀ p ∈ pairs, (c.Write p.2).length < UINT32_MAX)
    (f : w.m_fileWriter = recordsBytes c pairs)
    (i : w.m_offsets.m_elements = recordOffsets c 0 pairs)
    (K : Nat) (E : α) (pre post : List (Key × α))
    (hsplit : pairs = pre ++ (K, E) :: post) (hpre : ∀ p ∈ pre, p.1 ≠ K) :
    ∀ out, (reopened w).Read c K out = some (true, c.Read out (c.Write E)) := by
  have hidx : w.m_offsets.m_elements = recordOffsets c 0 pre
      ++ (K, (recordsBytes c pre).length)
        :: recordOffsets c ((recordsBytes c pre).length + (4 + (c.Write E).length)) post := by
    rw [i, hsplit, recordOffsets_append]
    simp [recordOffsets]
  have hmemK : (K, (recordsBytes c pre).length) ∈ w.m_offsets.m_elements := by
    rw [hidx]; simp
  obtain ⟨v, hv, hvmem, hvmin⟩ := getValueByKey_sorted_mem (reopened w).m_offsetsReader K
    (reopened_sorted w) ⟨_, (reopened_mem w _).mpr hmemK⟩
  have hle := hvmin _ ((reopened_mem w _).mpr hmemK)
  have hvmem2 := (reopened_mem w _).mp hvmem
  have hveq : v = (recordsBytes c pre).length := by
    rw [hidx] at hvmem2
    rcases List.mem_append.mp hvmem2 with h1 | h1
    · have hk : K ∈ (recordOffsets c 0 pre).map Prod.fst := List.mem_map.mpr ⟨_, h1, rfl⟩
      rw [recordOffsets_keys] at hk
      obtain ⟨p, hp, hpk⟩ := List.mem_map.mp hk
      exact absurd hpk (hpre p hp)
    · rcases List.mem_cons.mp h1 with h2 | h2
      · exact (Prod.mk.inj h2).2
      · have := Nat.le_trans (recordOffsets_ge c post _ _ h2) hle
        omega
  have hrec : recordAt c w.m_fileWriter (recordsBytes c pre).length E := by
    rw [f, hsplit, recordsBytes_append]
    have := recordAt_middle c (recordsBytes c pre) (recordsBytes c post) E
    simpa [recordsBytes, List.append_assoc] using this
  have hlt : (c.Write E).length < 4294967296 := by
    have := hb (K, E) (by rw [hsplit]; simp)
    unfold UINT32_MAX at this
    simp only at this
    omega
  rw [hveq] at hv
  exact fun out => Read_of_recordAt c (reopened w) K _ E out hv hrec hlt

theorem split_of_nodup {α : Type} (pairs : List (Nat × α))
    (hid : (pairs.map Prod.fst).Nodup) (K : Nat) (E : α) (hmem : (K, E) ∈ pairs) :
    ∃ pre post, pairs = pre ++ (K, E) :: post ∧ ∀ p ∈ pre, p.1 ≠ K := by
  obtain ⟨pre, post, hsplit⟩ := List.append_of_mem hmem
  refine ⟨pre, post, hsplit, ?_⟩
  intro p hp hpk
  rw [hsplit, List.map_append, List.map_cons] at hid
  have hdis := (List.nodup_append.mp hid).2.2
  exact hdis (List.mem_map.mpr ⟨p, hp, hpk⟩) (List.mem_cons_self _ _)

theorem valuesAdded_memberEntries {α ρ : Type} (select : α → List (Nat × ρ)) (wy : Nat)
    (pairs : List (Key × α)) :
    valuesAdded (memberEntries select pairs) wy
      = pairs.flatMap (fun p =>
          ((select p.2).filter (fun mem => decide (mem.1 = wy))).map (fun _ => p.1)) := by
  unfold valuesAdded memberEntries
  induction pairs with
  | nil => rfl
  | cons p ps ih =>
    simp only [List.flatMap_cons, List.filter_append, List.map_append, ih]
    congr 1
    rw [List.filter_map, List.map_map]
    rfl

theorem visitsOf_all_continue {α σ : Type} (read : Nat → Option (Bool × α))
    (toDo : σ → Nat → α → ControlFlow × σ) (f : Nat → α)
    (hc : ∀ s id e, (toDo s id e).1 = ControlFlow.Continue) :
    ∀ (rs : List Nat) (s : σ), (∀ id ∈ rs, read id = some (true, f id)) →
      visitsOf read toDo rs s = rs.map (fun id => (id, f id, ControlFlow.Continue)) := by
  intro rs
  induction rs with
  | nil => intro s _; rfl
  | cons r rs ih =>
    intro s hread
    have hr := hread r (List.mem_cons_self _ _)
    simp only [visitsOf, hr, List.map_cons]
    have hd := hc s r (f r)
    rcases htd : toDo s r (f r) with ⟨cf, s'⟩
    rw [htd] at hd
    simp only at hd
    subst hd
    simp only
    rw [ih s' (fun id hid => hread id (List.mem_cons_of_mem _ hid))]

/-- Counterexample to C14 as stated: one relation, with id `1`, that lists the way `7` twice
among its way members.  It references way `7`, and `ForEachRelationByWay(7, visitor)` with a
visitor that always answers `Continue` invokes the visitor twice for it, not once. -/
theorem relation_visited_twice_counterexample :
    (runRelationCalls miniCodec miniMembers true IntermediateDataWriter.empty
        [RelationCall.single 1 ([3], [7, 7])]).toOption.map
      (fun w => (IntermediateDataReader.relationCalls miniCodec ([], []) w.reopened 7
        (fun (_ : Unit) (_ : Key) (_ : MiniRelation) => (ControlFlow.Continue, ())) ()).map
          (fun L => L.map (fun x => (x.1, x.2.1))))
      = some (some [(1, ([3], [7, 7])), (1, ([3], [7, 7]))]) := by
  decide

/-- C14 (amended): end to end.  Let relations with distinct ids, with payloads shorter than
`UINT32_MAX` and with serializations that `Read` inverts, be added through `AddRelation` and
`AddRelations`, followed by `SaveIndex`.  For every way id `wy`, the reader's
`ForEachRelationByWay(wy, toDo)` with a visitor that always answers `Continue` returns
normally and invokes the visitor, in ascending order of the relation ids, once for every
occurrence of `wy` among the way members of a relation, each time with that relation's id
and an element equal to the one written: exactly once for a relation that lists `wy` once,
and not at all when no relation references `wy`. -/
theorem relations_by_way_end_to_end {α ρ σ : Type} (c : ElementCodec α)
    (m : RelationMembers α ρ) (a : Bool) (dflt : α) (calls : List (RelationCall α))
    (hb : ∀ p ∈ relationPairs calls, (c.Write p.2).length < UINT32_MAX)
    (hid : ((relationPairs calls).map Prod.fst).Nodup)
    (hinv : ∀ p ∈ relationPairs calls, c.Read dflt (c.Write p.2) = p.2)
    (wy : Key) (toDo : σ → Key → α → ControlFlow × σ) (s : σ)
    (hc : ∀ s id e, (toDo s id e).1 = ControlFlow.Continue) :
    ∃ w L, runRelationCalls c m a IntermediateDataWriter.empty calls = Except.ok w ∧
      IntermediateDataReader.relationCalls c dflt w.reopened wy toDo s = some L ∧
      (L.map Prod.fst).Pairwise (fun x y => x ≤ y) ∧
      (L.map (fun x => (x.1, x.2.1))).Perm ((relationPairs calls).flatMap (fun p =>
        ((m.ways p.2).filter (fun mem => decide (mem.1 = wy))).map (fun _ => p))) ∧
      ((∀ p ∈ relationPairs calls, ∀ mem ∈ m.ways p.2, mem.1 ≠ wy) → L = []) := by
  obtain ⟨w, hrun, f, _, i, y, _⟩ :=
    runRelationCalls_layout c m a calls IntermediateDataWriter.empty hb
  have f2 : w.m_relations.m_fileWriter = recordsBytes c (relationPairs calls) := by
    simpa [IntermediateDataWriter.empty, OSMElementCacheWriter.empty] using f
  have i2 : w.m_relations.m_offsets.m_elements = recordOffsets c 0 (relationPairs calls) := by
    simpa [IntermediateDataWriter.empty, OSMElementCacheWriter.empty, IndexFileWriter.empty]
      using i
  have y2 : w.m_wayToRelations.m_elements = memberEntries m.ways (relationPairs calls) := by
    simpa [IntermediateDataWriter.empty, IndexFileWriter.empty] using y
  -- the way index of the reader
  have hidx : w.reopened.m_wayToRelations.m_elements
      = IndexFileWriter.sortElements (memberEntries m.ways (relationPairs calls)) := by
    simp [IntermediateDataWriter.reopened, IndexFileReader.load, IndexFileWriter.WriteAll, y2]
  have hsorted : w.reopened.m_wayToRelations.m_elements.Pairwise entryLE := by
    rw [hidx]; exact sortElements_sorted _
  have hperm : (matchesOf w.reopened.m_wayToRelations wy).Perm
      ((relationPairs calls).flatMap (fun p =>
        ((m.ways p.2).filter (fun mem => decide (mem.1 = wy))).map (fun _ => p.1))) := by
    unfold matchesOf
    rw [hidx, ← valuesAdded_memberEntries]
    exact keysAt_values_perm wy _
  -- every relation reads back
  have hrd : ∀ p ∈ relationPairs calls, w.reopened.m_relations.Read c p.1 dflt = some (true, p.2) := by
    intro p hp
    obtain ⟨pre, post, hsplit, hpre⟩ := split_of_nodup _ hid p.1 p.2 hp
    have := read_first_of_layout c w.m_relations _ hb f2 i2 p.1 p.2 pre post hsplit hpre dflt
    rw [hinv p hp] at this
    exact this
  -- every matched id is the id of a relation
  have hmatch : ∀ id ∈ matchesOf w.reopened.m_wayToRelations wy,
      ∃ p ∈ relationPairs calls, p.1 = id := by
    intro id hidm
    have := hperm.subset hidm
    obtain ⟨p, hp, hin⟩ := List.mem_flatMap.mp this
    obtain ⟨_, _, rfl⟩ := List.mem_map.mp hin
    exact ⟨p, hp, rfl⟩
  have hf : ∀ id ∈ matchesOf w.reopened.m_wayToRelations wy,
      w.reopened.m_relations.Read c id dflt
        = some (true, (((w.reopened.m_relations.Read c id dflt).map Prod.snd).getD dflt)) := by
    intro id hidm
    obtain ⟨p, hp, rfl⟩ := hmatch id hidm
    rw [hrd p hp]
    rfl
  have hdef : ∀ id ∈ matchesOf w.reopened.m_wayToRelations wy,
      w.reopened.m_relations.Read c id dflt ≠ none := by
    intro id hidm
    rw [hf id hidm]
    simp
  have hL := visitsOf_all_continue (fun id => w.reopened.m_relations.Read c id dflt) toDo
    (fun id => ((w.reopened.m_relations.Read c id dflt).map Prod.snd).getD dflt) hc
    (matchesOf w.reopened.m_wayToRelations wy) s hf
  have hcalls : IntermediateDataReader.relationCalls c dflt w.reopened wy toDo s
      = some (visitsOf (fun id => w.reopened.m_relations.Read c id dflt) toDo
          (matchesOf w.reopened.m_wayToRelations wy) s) := by
    unfold IntermediateDataReader.relationCalls IntermediateDataReader.ForEachRelationByWay
      IntermediateDataReader.RelationProcessor
    rw [ForEachByKey_sorted _ _ _ _ hsorted]
    have := visit_processor_recording c dflt w.reopened.m_relations toDo
      (matchesOf w.reopened.m_wayToRelations wy) s [] hdef
    simpa [matchesOf] using this
  have hpermL : ((visitsOf (fun id => w.reopened.m_relations.Read c id dflt) toDo
      (matchesOf w.reopened.m_wayToRelations wy) s).map (fun x => (x.1, x.2.1))).Perm
      ((relationPairs calls).flatMap (fun p =>
        ((m.ways p.2).filter (fun mem => decide (mem.1 = wy))).map (fun _ => p))) := by
    rw [hL, List.map_map]
    refine (hperm.map _).trans ?_
    rw [List.map_flatMap]
    refine List.Perm.of_eq ?_
    apply List.flatMap_congr
    intro p hp
    rw [List.map_map]
    apply List.map_congr_left
    intro mem _
    simp only [Function.comp_apply]
    rw [hrd p hp]
    rfl
  refine ⟨w, _, hrun, hcalls, ?_, hpermL, ?_⟩
  · rw [hL, List.map_map]
    have : ((fun x : Nat × α × ControlFlow => x.1) ∘ fun id =>
        (id, ((w.reopened.m_relations.Read c id dflt).map Prod.snd).getD dflt,
          ControlFlow.Continue)) = id := by
      funext x; rfl
    rw [this, List.map_id]
    exact keysAt_values_sorted wy _ hsorted
  · intro hnone
    have hnil : (relationPairs calls).flatMap (fun p =>
        ((m.ways p.2).filter (fun mem => decide (mem.1 = wy))).map (fun _ => p)) = [] := by
      rw [List.flatMap_eq_nil_iff]
      intro p hp
      rw [List.map_eq_nil_iff, List.filter_eq_nil_iff]
      intro mem hmem
      simpa using hnone p hp mem hmem
    rw [hnil] at hpermL
    have := List.Perm.eq_nil hpermL
    exact List.map_eq_nil_iff.mp this

/-- Witness of C14 (amended): relation `1` references way `7` and node `3`; the traversal
for way `7` and the one for way `999`. -/
theorem relations_by_way_end_to_end_witness :
    (∀ p ∈ relationPairs exampleRelationCalls, (miniCodec.Write p.2).length < UINT32_MAX) ∧
      ((relationPairs exampleRelationCalls).map Prod.fst).Nodup ∧
      (∀ p ∈ relationPairs exampleRelationCalls,
        miniCodec.Read ([], []) (miniCodec.Write p.2) = p.2) ∧
      (∃ w L, runRelationCalls miniCodec miniMembers true IntermediateDataWriter.empty
            exampleRelationCalls = Except.ok w ∧
        IntermediateDataReader.relationCalls miniCodec ([], []) w.reopened 7
            (fun (n : Nat) (_ : Key) (_ : MiniRelation) => (ControlFlow.Continue, n + 1)) 0
          = some L ∧
        (L.map Prod.fst).Pairwise (fun x y => x ≤ y) ∧
        (L.map (fun x => (x.1, x.2.1))).Perm ((relationPairs exampleRelationCalls).flatMap
          (fun p => ((miniMembers.ways p.2).filter (fun mem => decide (mem.1 = 7))).map
            (fun _ => p))) ∧
        ((∀ p ∈ relationPairs exampleRelationCalls, ∀ mem ∈ miniMembers.ways p.2, mem.1 ≠ 7) →
          L = [])) ∧
      (∃ w L, runRelationCalls miniCodec miniMembers true IntermediateDataWriter.empty
            exampleRelationCalls = Except.ok w ∧
        IntermediateDataReader.relationCalls miniCodec ([], []) w.reopened 999
            (fun (n : Nat) (_ : Key) (_ : MiniRelation) => (ControlFlow.Continue, n + 1)) 0
          = some L ∧
        (L.map Prod.fst).Pairwise (fun x y => x ≤ y) ∧
        (L.map (fun x => (x.1, x.2.1))).Perm ((relationPairs exampleRelationCalls).flatMap
          (fun p => ((miniMembers.ways p.2).filter (fun mem => decide (mem.1 = 999))).map
            (fun _ => p))) ∧
        ((∀ p ∈ relationPairs exampleRelationCalls, ∀ mem ∈ miniMembers.ways p.2, mem.1 ≠ 999) →
          L = [])) :=
  ⟨by decide, by decide, by decide,
    relations_by_way_end_to_end miniCodec miniMembers true ([], []) exampleRelationCalls
      (by decide) (by decide) (by decide) 7
      (fun (n : Nat) (_ : Key) (_ : MiniRelation) => (ControlFlow.Continue, n + 1)) 0
      (fun _ _ _ => rfl),
    relations_by_way_end_to_end miniCodec miniMembers true ([], []) exampleRelationCalls
      (by decide) (by decide) (by decide) 999
      (fun (n : Nat) (_ : Key) (_ : MiniRelation) => (ControlFlow.Continue, n + 1)) 0
      (fun _ _ _ => rfl)⟩

/-! ## Batch writes of several threads: the invariant -/

theorem WriteBatch_as_steps {α : Type} (c : ElementCodec α) (a : Bool)
    (w : OSMElementCacheWriter) (elements : List (Key × α)) (concurrent : Bool) :
    w.WriteBatch c a elements concurrent
      = match BatchCall.start c a elements with
        | none => Except.error w
        | some t => Except.ok
            (BatchCall.step (BatchCall.step w t).1 (BatchCall.step w t).2).1 := by
  unfold OSMElementCacheWriter.WriteBatch BatchCall.start
  cases OSMElementCacheWriter.serializeBatch c a elements with
  | none => rfl
  | some r => rfl

end cache
end generator
